import Mathlib

/-! Employee tracker: AVL index over employee records.

A shallow embedding of `src/EmployeeTracker.c` and the properties of its
AVL tree (`insert`, `search`, `inOrder`, the two rotations).

Modelling conventions.

* A `Node *` is a value of the inductive type `Node`; the `NULL` pointer is
  `Node.null`.  The C code updates nodes in place and returns the pointer of
  the (possibly new) subtree root; here every function returns the subtree
  it leaves behind.  Trees built by `insert` never share nodes, so the two
  readings agree.
* A read through a `NULL` pointer (`node->left->data`, `x->right` in a
  rotation) is undefined behaviour in C: the functions that can do so return
  `Option`, and `none` stands for such a read.
* `int` values (ids, cached heights, balance factors) are mathematical
  integers.  The code only compares ids; cached heights are at most the tree
  height, which would need more than `2 ^ 31` levels to leave the `int` range.
* `printf` output is returned as data: `insert` returns the ids named by the
  duplicate-id error lines it printed, `inOrder` the records it printed, in
  printing order.
* `performance_score` is a `double` that the tree code only copies; it is
  carried as its 64-bit pattern.
* `malloc` is assumed to succeed (on failure the C program exits).
* A name is the list of characters of a C string; `createEmployee` is read on
  the 100-character buffer it fills.
* `insertTraced` and `searchCounted` are `insert` and `search` that also
  report the exits taken and the nodes examined; they are shown to return
  what the plain functions return.
-/

namespace EmployeeTracker

/-- Record `struct Employee`: id, name (the characters before the terminator)
and score (bit pattern of the `double`). -/
structure Employee where
  employee_id : Int
  name : List Char
  performance_score : Nat
  deriving DecidableEq, Repr

/-- Tree `struct Node`, with `null` for the `NULL` pointer. -/
inductive Node where
  | null : Node
  | mk (data : Employee) (left right : Node) (height : Int) : Node
  deriving DecidableEq, Repr

/-- Cached height `height(N)`: `0` for `NULL`, else the `height` field. -/
def height : Node → Int
  | Node.null => 0
  | Node.mk _ _ _ h => h

/-- Maximum `max(a, b)` as written in the source: `(a > b) ? a : b`. -/
def max (a b : Int) : Int := if a > b then a else b

/-- Function `updateHeight(N)`: recompute the cached height from the children's
cached heights; nothing happens on `NULL`. -/
def updateHeight : Node → Node
  | Node.null => Node.null
  | Node.mk d l r _ => Node.mk d l r (1 + max (height l) (height r))

/-- The terminator character of a C string. -/
def NUL : Char := Char.ofNat 0

/-- The string a `char` buffer holds: the characters before the first `NUL`. -/
def cString (buf : List Char) : List Char := buf.takeWhile fun c => c != NUL

/-- Library call `strncpy(dest, src, n)`, as the `n` characters it writes to
`dest`: the first `n` characters of the string `src`, padded with `NUL` when
the string is shorter than `n`. -/
def strncpy (src : List Char) (n : Nat) : List Char :=
  (cString src).take n ++ List.replicate (n - (cString src).length) NUL

/-- Function `createEmployee`: the 100-character buffer `emp.name` after
`strncpy(emp.name, name, 99)` and `emp.name[99] = 0`; the record carries the
string that buffer holds. -/
def createEmployee (id : Int) (name : List Char) (score : Nat) : Employee :=
  ⟨id, cString (strncpy name 99 ++ [NUL]), score⟩

/-- Function `newNode(emp)`: a leaf of cached height 1. -/
def newNode (emp : Employee) : Node := Node.mk emp Node.null Node.null 1

/-- Function `getBalance(N)`: `0` for `NULL`, else `height(left) - height(right)`. -/
def getBalance : Node → Int
  | Node.null => 0
  | Node.mk _ l r _ => height l - height r

/-- Function `rightRotate(y)`: `x = y->left`, `T2 = x->right`, then `x->right = y`,
`y->left = T2`, heights of `y` then `x` recomputed.  Reading `y->left` or
`x->right` through `NULL` gives `none`. -/
def rightRotate : Node → Option Node
  | Node.mk dy (Node.mk dx xl T2 hx) yr hy =>
      some (updateHeight (Node.mk dx xl (updateHeight (Node.mk dy T2 yr hy)) hx))
  | _ => none

/-- Function `leftRotate(x)`: `y = x->right`, `T2 = y->left`, then `y->left = x`,
`x->right = T2`, heights of `x` then `y` recomputed.  Reading `x->right` or
`y->left` through `NULL` gives `none`. -/
def leftRotate : Node → Option Node
  | Node.mk dx xl (Node.mk dy T2 yr hy) hx =>
      some (updateHeight (Node.mk dy (updateHeight (Node.mk dx xl T2 hx)) yr hy))
  | _ => none

/-- Read `N->data.employee_id`; `none` when `N` is `NULL`. -/
def keyOf : Node → Option Int
  | Node.null => none
  | Node.mk d _ _ _ => some d.employee_id

/-- Condition `balance_test && key_test(child->data.employee_id)` with C's
short-circuit evaluation: the child is only read when the balance test holds. -/
def guardedTest (balanceTest : Bool) (child : Node) (keyTest : Int → Bool) : Option Bool :=
  if balanceTest then (keyOf child).map keyTest else some false

/-- Steps 2 to 4 of `insert` (source lines 123-153), run on a non-`NULL` node
with fields `d`, `l`, `r` after the recursive call has replaced one child:
recompute the height, read the balance factor, then try the four cases LL,
RR, LR, RL in the order of the source and fall through to `return node`. -/
def rebalance (d : Employee) (l r : Node) (h : Int) (emp : Employee) : Option Node :=
  let node := updateHeight (Node.mk d l r h)
  let balance := getBalance node
  (guardedTest (decide (balance > 1)) l
      (fun k => decide (emp.employee_id < k))).bind fun ll =>
  if ll then rightRotate node else
  (guardedTest (decide (balance < -1)) r
      (fun k => decide (emp.employee_id > k))).bind fun rr =>
  if rr then leftRotate node else
  (guardedTest (decide (balance > 1)) l
      (fun k => decide (emp.employee_id > k))).bind fun lr =>
  if lr then (leftRotate l).bind fun l' => rightRotate (Node.mk d l' r (height node)) else
  (guardedTest (decide (balance < -1)) r
      (fun k => decide (emp.employee_id < k))).bind fun rl =>
  if rl then (rightRotate r).bind fun r' => leftRotate (Node.mk d l r' (height node)) else
  some node

/-- Function `insert(node, emp)`.  The result is the new subtree together with
the ids of the duplicate-id error lines printed; `none` is a read through
`NULL`. -/
def insert : Node → Employee → Option (Node × List Int)
  | Node.null, emp => some (newNode emp, [])
  | Node.mk d l r h, emp =>
      if emp.employee_id < d.employee_id then
        match insert l emp with
        | none => none
        | some (l', out) => (rebalance d l' r h emp).map fun t => (t, out)
      else if emp.employee_id > d.employee_id then
        match insert r emp with
        | none => none
        | some (r', out) => (rebalance d l r' h emp).map fun t => (t, out)
      else
        some (Node.mk d l r h, [emp.employee_id])

/-- Function `search(root, employee_id)`: the node found, or `null`. -/
def search : Node → Int → Node
  | Node.null, _ => Node.null
  | Node.mk d l r h, employee_id =>
      if d.employee_id = employee_id then Node.mk d l r h
      else if d.employee_id < employee_id then search r employee_id
      else search l employee_id

/-- Function `inOrder(root)`: the records printed, left subtree, node, right
subtree. -/
def inOrder : Node → List Employee
  | Node.null => []
  | Node.mk d l r _ => inOrder l ++ d :: inOrder r

/-- The caller's loop `root = insert(root, emp)` over a sequence of records,
collecting the error lines. -/
def insertAll : Node → List Employee → Option (Node × List Int)
  | t, [] => some (t, [])
  | t, e :: es =>
      match insert t e with
      | none => none
      | some (t', out) =>
          match insertAll t' es with
          | none => none
          | some (t'', out') => some (t'', out ++ out')

/-! ## Vocabulary of the properties -/

/-- Record stored in a node; `none` for `NULL`. -/
def dataOf : Node → Option Employee
  | Node.null => none
  | Node.mk d _ _ _ => some d

/-- Ids of the nodes, in traversal order. -/
def keys (t : Node) : List Int := (inOrder t).map Employee.employee_id

/-- Number of nodes. -/
def numNodes : Node → Nat
  | Node.null => 0
  | Node.mk _ l r _ => numNodes l + numNodes r + 1

/-- True height, computed from the shape: `0` for `NULL`, `1` for a leaf. -/
def realHeight : Node → Nat
  | Node.null => 0
  | Node.mk _ l r _ => 1 + Max.max (realHeight l) (realHeight r)

/-- BST order: at every node the ids of the left subtree are smaller and the
ids of the right subtree larger than the node's id. -/
def BSTOrdered : Node → Prop
  | Node.null => True
  | Node.mk d l r _ =>
      (∀ k ∈ keys l, k < d.employee_id) ∧ (∀ k ∈ keys r, d.employee_id < k) ∧
      BSTOrdered l ∧ BSTOrdered r

/-- AVL balance on true heights: at every node the difference
`realHeight left - realHeight right` lies in `[-1, 1]`. -/
def Balanced : Node → Prop
  | Node.null => True
  | Node.mk _ l r _ =>
      (-1 ≤ (realHeight l : Int) - (realHeight r : Int)) ∧
      ((realHeight l : Int) - (realHeight r : Int) ≤ 1) ∧
      Balanced l ∧ Balanced r

/-- Every cached height equals the true height of its subtree. -/
def HeightsOK : Node → Prop
  | Node.null => True
  | Node.mk d l r h =>
      h = (realHeight (Node.mk d l r h) : Int) ∧ HeightsOK l ∧ HeightsOK r

/-- Placement of a record in a list of records: immediately before the first
record with a larger id, at the end if there is none. -/
def placeById (r : Employee) : List Employee → List Employee
  | [] => [r]
  | x :: xs => if r.employee_id < x.employee_id then r :: x :: xs else x :: placeById r xs

instance decBSTOrdered : (t : Node) → Decidable (BSTOrdered t)
  | Node.null => isTrue trivial
  | Node.mk d l r _ =>
      have := decBSTOrdered l
      have := decBSTOrdered r
      by unfold BSTOrdered; exact inferInstance

instance decBalanced : (t : Node) → Decidable (Balanced t)
  | Node.null => isTrue trivial
  | Node.mk _ l r _ =>
      have := decBalanced l
      have := decBalanced r
      by unfold Balanced; exact inferInstance

instance decHeightsOK : (t : Node) → Decidable (HeightsOK t)
  | Node.null => isTrue trivial
  | Node.mk _ l r _ =>
      have := decHeightsOK l
      have := decHeightsOK r
      by unfold HeightsOK; exact inferInstance

/-- Fibonacci numbers with `Fib 1 = Fib 2 = 1`. -/
def Fib : Nat → Nat
  | 0 => 0
  | 1 => 1
  | n + 2 => Fib n + Fib (n + 1)

/-- Node whose cached height is recomputed from its children, as `updateHeight` leaves it. -/
def fresh (d : Employee) (l r : Node) : Node :=
  Node.mk d l r (1 + max (height l) (height r))

/-- After an insertion that made the subtree taller: the root leans to the side
the record went to, or the subtree is a single leaf. -/
def Leans (emp : Employee) : Node → Prop
  | Node.null => False
  | Node.mk d l r _ =>
      (emp.employee_id < d.employee_id ∧ realHeight r < realHeight l) ∨
      (d.employee_id < emp.employee_id ∧ realHeight l < realHeight r) ∨
      (realHeight l = 0 ∧ realHeight r = 0)


/-! ## Instrumented readings of `insert` and `search` -/

/-- The exit steps 2 to 4 of `insert` take at a node: one of the four rotation
cases (`LL`: `rightRotate(node)`; `RR`: `leftRotate(node)`; `LR`: `leftRotate`
on the left child, then `rightRotate(node)`; `RL`: `rightRotate` on the right
child, then `leftRotate(node)`), or the final `return node`, with the balance
factor read at that node. -/
inductive Exit where
  | LL : Exit
  | RR : Exit
  | LR : Exit
  | RL : Exit
  | returnNode (balance : Int) : Exit
  deriving DecidableEq, Repr

/-- Whether an exit is one of the four rotation cases. -/
def Exit.isRotation : Exit → Bool
  | Exit.returnNode _ => false
  | _ => true

/-- Steps 2 to 4 of `insert`, as `rebalance`, also reporting the exit taken. -/
def rebalanceTraced (d : Employee) (l r : Node) (h : Int) (emp : Employee) :
    Option (Node × Exit) :=
  let node := updateHeight (Node.mk d l r h)
  let balance := getBalance node
  (guardedTest (decide (balance > 1)) l
      (fun k => decide (emp.employee_id < k))).bind fun ll =>
  if ll then (rightRotate node).map fun t => (t, Exit.LL) else
  (guardedTest (decide (balance < -1)) r
      (fun k => decide (emp.employee_id > k))).bind fun rr =>
  if rr then (leftRotate node).map fun t => (t, Exit.RR) else
  (guardedTest (decide (balance > 1)) l
      (fun k => decide (emp.employee_id > k))).bind fun lr =>
  if lr then
    (leftRotate l).bind fun l' =>
      (rightRotate (Node.mk d l' r (height node))).map fun t => (t, Exit.LR) else
  (guardedTest (decide (balance < -1)) r
      (fun k => decide (emp.employee_id < k))).bind fun rl =>
  if rl then
    (rightRotate r).bind fun r' =>
      (leftRotate (Node.mk d l r' (height node))).map fun t => (t, Exit.RL) else
  some (node, Exit.returnNode balance)

/-- Function `insert(node, emp)`, as `insert`, also reporting the exits taken
at the nodes of the insertion path that reach step 2, deepest node first. -/
def insertTraced : Node → Employee → Option (Node × List Int × List Exit)
  | Node.null, emp => some (newNode emp, [], [])
  | Node.mk d l r h, emp =>
      if emp.employee_id < d.employee_id then
        match insertTraced l emp with
        | none => none
        | some (l', out, tr) =>
            (rebalanceTraced d l' r h emp).map fun p => (p.1, out, tr ++ [p.2])
      else if emp.employee_id > d.employee_id then
        match insertTraced r emp with
        | none => none
        | some (r', out, tr) =>
            (rebalanceTraced d l r' h emp).map fun p => (p.1, out, tr ++ [p.2])
      else
        some (Node.mk d l r h, [emp.employee_id], [])

/-- Function `search(root, employee_id)`, as `search`, also counting the nodes
whose id is compared with the key. -/
def searchCounted : Node → Int → Node × Nat
  | Node.null, _ => (Node.null, 0)
  | Node.mk d l r h, employee_id =>
      if d.employee_id = employee_id then (Node.mk d l r h, 1)
      else if d.employee_id < employee_id then
        ((searchCounted r employee_id).1, (searchCounted r employee_id).2 + 1)
      else ((searchCounted l employee_id).1, (searchCounted l employee_id).2 + 1)

/-- All subtrees of a tree, one per node, the tree itself first. -/
def subtrees : Node → List Node
  | Node.null => []
  | Node.mk d l r h => Node.mk d l r h :: (subtrees l ++ subtrees r)

/-- Balance factor on true heights: `0` for `NULL`. -/
def realBalance : Node → Int
  | Node.null => 0
  | Node.mk _ l r _ => (realHeight l : Int) - (realHeight r : Int)

/-- The ids `1, 2, ..., n` in ascending order. -/
def ascendingIds (n : Nat) : List Int := (List.range' 1 n).map Int.ofNat

/-! ## The rebalancing step, case by case -/

theorem height_eq_realHeight (t : Node) (h : HeightsOK t) : height t = realHeight t := by
  cases t with
  | null => rfl
  | mk d l r c => exact h.1

theorem rebalance_none_needed (d : Employee) (l r : Node) (h : Int) (emp : Employee)
    (h1 : -1 ≤ height l - height r) (h2 : height l - height r ≤ 1) :
    rebalance d l r h emp = some (fresh d l r) := by
  have a1 : ¬ (height l - height r > 1) := by omega
  have a2 : ¬ (height l - height r < -1) := by omega
  simp [rebalance, guardedTest, updateHeight, getBalance, fresh, a1, a2]

theorem rebalance_LL (d dl : Employee) (ll lr r : Node) (h hl : Int) (emp : Employee)
    (h1 : height (Node.mk dl ll lr hl) - height r > 1)
    (hk : emp.employee_id < dl.employee_id) :
    rebalance d (Node.mk dl ll lr hl) r h emp = some (fresh dl ll (fresh d lr r)) := by
  simp [rebalance, guardedTest, updateHeight, getBalance, fresh, h1, hk, keyOf, rightRotate]

theorem rebalance_LR (d dl dlr : Employee) (ll a b r : Node) (h hl hlr : Int) (emp : Employee)
    (h1 : height (Node.mk dl ll (Node.mk dlr a b hlr) hl) - height r > 1)
    (hk : dl.employee_id < emp.employee_id) :
    rebalance d (Node.mk dl ll (Node.mk dlr a b hlr) hl) r h emp
      = some (fresh dlr (fresh dl ll a) (fresh d b r)) := by
  have a1 : ¬ (emp.employee_id < dl.employee_id) := by omega
  have a2 : ¬ (height (Node.mk dl ll (Node.mk dlr a b hlr) hl) - height r < -1) := by omega
  simp [rebalance, guardedTest, updateHeight, getBalance, fresh, h1, hk, keyOf, rightRotate,
    leftRotate, a1, a2]

theorem rebalance_RR (d dr : Employee) (l rl rr : Node) (h hr : Int) (emp : Employee)
    (h1 : height l - height (Node.mk dr rl rr hr) < -1)
    (hk : dr.employee_id < emp.employee_id) :
    rebalance d l (Node.mk dr rl rr hr) h emp = some (fresh dr (fresh d l rl) rr) := by
  have a2 : ¬ (height l - height (Node.mk dr rl rr hr) > 1) := by omega
  simp [rebalance, guardedTest, updateHeight, getBalance, fresh, h1, hk, keyOf, leftRotate, a2]

theorem rebalance_RL (d dr drl : Employee) (l a b rr : Node) (h hr hrl : Int) (emp : Employee)
    (h1 : height l - height (Node.mk dr (Node.mk drl a b hrl) rr hr) < -1)
    (hk : emp.employee_id < dr.employee_id) :
    rebalance d l (Node.mk dr (Node.mk drl a b hrl) rr hr) h emp
      = some (fresh drl (fresh d l a) (fresh dr b rr)) := by
  have a1 : ¬ (dr.employee_id < emp.employee_id) := by omega
  have a2 : ¬ (height l - height (Node.mk dr (Node.mk drl a b hrl) rr hr) > 1) := by omega
  simp [rebalance, guardedTest, updateHeight, getBalance, fresh, h1, hk, keyOf, rightRotate,
    leftRotate, a1, a2]

@[simp]
theorem keys_null : keys Node.null = [] := rfl

@[simp]
theorem keys_mk (d : Employee) (l r : Node) (h : Int) :
    keys (Node.mk d l r h) = keys l ++ d.employee_id :: keys r := by
  simp [keys, inOrder]

@[simp]
theorem keys_fresh (d : Employee) (l r : Node) :
    keys (fresh d l r) = keys l ++ d.employee_id :: keys r := by
  simp [fresh]

@[simp]
theorem inOrder_fresh (d : Employee) (l r : Node) :
    inOrder (fresh d l r) = inOrder l ++ d :: inOrder r := rfl

@[simp]
theorem realHeight_fresh (d : Employee) (l r : Node) :
    realHeight (fresh d l r) = 1 + Max.max (realHeight l) (realHeight r) := rfl

theorem heightsOK_fresh (d : Employee) (l r : Node) (hl : HeightsOK l) (hr : HeightsOK r) :
    HeightsOK (fresh d l r) := by
  refine ⟨?_, hl, hr⟩
  rw [height_eq_realHeight l hl, height_eq_realHeight r hr]
  simp only [realHeight, max]
  split_ifs <;> omega

theorem height_fresh (d : Employee) (l r : Node) (hl : HeightsOK l) (hr : HeightsOK r) :
    height (fresh d l r) = realHeight (fresh d l r) :=
  height_eq_realHeight _ (heightsOK_fresh d l r hl hr)

theorem bst_fresh (d : Employee) (l r : Node) (hl : BSTOrdered l) (hr : BSTOrdered r)
    (h1 : ∀ k ∈ keys l, k < d.employee_id) (h2 : ∀ k ∈ keys r, d.employee_id < k) :
    BSTOrdered (fresh d l r) := ⟨h1, h2, hl, hr⟩

theorem balanced_fresh (d : Employee) (l r : Node) (hl : Balanced l) (hr : Balanced r)
    (h1 : realHeight l ≤ realHeight r + 1) (h2 : realHeight r ≤ realHeight l + 1) :
    Balanced (fresh d l r) := ⟨by omega, by omega, hl, hr⟩

theorem realHeight_pos_iff (t : Node) : 0 < realHeight t ↔ t ≠ Node.null := by
  cases t <;> simp [realHeight]

/-- Rebalancing after an insertion into the left subtree. -/
theorem rebalance_left_spec (d : Employee) (l r : Node) (h : Int) (emp : Employee)
    (bl : BSTOrdered l) (al : Balanced l) (cl : HeightsOK l)
    (br : BSTOrdered r) (ar : Balanced r) (cr : HeightsOK r)
    (kl : ∀ k ∈ keys l, k < d.employee_id) (kr : ∀ k ∈ keys r, d.employee_id < k)
    (hh : (realHeight l ≤ realHeight r + 1 ∧ realHeight r ≤ realHeight l + 1) ∨
          (realHeight l = realHeight r + 2 ∧ Leans emp l)) :
    ∃ t, rebalance d l r h emp = some t ∧ BSTOrdered t ∧ Balanced t ∧ HeightsOK t ∧
      inOrder t = inOrder l ++ d :: inOrder r ∧
      (realHeight l ≤ realHeight r + 1 → t = fresh d l r) ∧
      (realHeight l = realHeight r + 2 → realHeight t = realHeight l) := by
  rcases hh with ⟨h1, h2⟩ | ⟨h1, h2⟩
  · refine ⟨fresh d l r, ?_, bst_fresh d l r bl br kl kr, balanced_fresh d l r al ar h1 h2,
      heightsOK_fresh d l r cl cr, rfl, fun _ => rfl, fun h3 => by omega⟩
    apply rebalance_none_needed
    · rw [height_eq_realHeight l cl, height_eq_realHeight r cr]; omega
    · rw [height_eq_realHeight l cl, height_eq_realHeight r cr]; omega
  · cases l with
    | null => exact absurd h2 (by simp [Leans])
    | mk dl ll lr hl =>
      have hgt : height (Node.mk dl ll lr hl) - height r > 1 := by
        rw [height_eq_realHeight _ cl, height_eq_realHeight r cr]; omega
      obtain ⟨-, -, bll, blr⟩ := id bl
      obtain ⟨al1, al2, all, alr⟩ := id al
      obtain ⟨-, cll, clr⟩ := id cl
      have kll : ∀ k ∈ keys ll, k < dl.employee_id := bl.1
      have klr : ∀ k ∈ keys lr, dl.employee_id < k := bl.2.1
      have kdl : dl.employee_id < d.employee_id := kl _ (by simp)
      simp only [realHeight] at h1
      rcases h2 with ⟨k1, k2⟩ | ⟨k1, k2⟩ | ⟨k1, k2⟩
      · refine ⟨_, rebalance_LL d dl ll lr r h hl emp hgt k1, ?_, ?_, ?_, ?_, ?_, ?_⟩
        · refine bst_fresh _ _ _ bll (bst_fresh _ _ _ blr br ?_ kr) kll ?_
          · intro k hk; exact kl k (by simp [hk])
          · intro k hk
            simp only [keys_fresh, List.mem_append, List.mem_cons] at hk
            rcases hk with hk | hk | hk
            · exact klr k hk
            · omega
            · have := kr k hk; omega
        · refine balanced_fresh _ _ _ all (balanced_fresh _ _ _ alr ar ?_ ?_) ?_ ?_ <;>
            (try simp only [realHeight_fresh]) <;> omega
        · exact heightsOK_fresh _ _ _ cll (heightsOK_fresh _ _ _ clr cr)
        · simp [inOrder]
        · intro h3; simp only [realHeight] at h3; omega
        · intro _; simp only [realHeight_fresh, realHeight]; omega
      · cases lr with
        | null => simp [realHeight] at k2
        | mk dlr a b hlr =>
          obtain ⟨-, -, ba, bb⟩ := id blr
          obtain ⟨ar1, ar2, aa, ab⟩ := id alr
          obtain ⟨-, ca, cb⟩ := id clr
          have ka : ∀ k ∈ keys a, k < dlr.employee_id := blr.1
          have kb : ∀ k ∈ keys b, dlr.employee_id < k := blr.2.1
          have kdlr : dl.employee_id < dlr.employee_id := klr _ (by simp)
          have kdlr2 : dlr.employee_id < d.employee_id := kl _ (by simp)
          simp only [realHeight] at h1 k2 al1 al2
          refine ⟨_, rebalance_LR d dl dlr ll a b r h hl hlr emp hgt k1, ?_, ?_, ?_, ?_, ?_, ?_⟩
          · refine bst_fresh _ _ _ (bst_fresh _ _ _ bll ba kll ?_) (bst_fresh _ _ _ bb br ?_ kr)
              ?_ ?_
            · intro k hk; exact klr k (by simp [hk])
            · intro k hk; exact kl k (by simp [hk])
            · intro k hk
              simp only [keys_fresh, List.mem_append, List.mem_cons] at hk
              rcases hk with hk | hk | hk
              · have := kll k hk; omega
              · omega
              · exact ka k hk
            · intro k hk
              simp only [keys_fresh, List.mem_append, List.mem_cons] at hk
              rcases hk with hk | hk | hk
              · exact kb k hk
              · omega
              · have := kr k hk; omega
          · refine balanced_fresh _ _ _ (balanced_fresh _ _ _ all aa ?_ ?_)
              (balanced_fresh _ _ _ ab ar ?_ ?_) ?_ ?_ <;>
              (try simp only [realHeight_fresh]) <;> omega
          · exact heightsOK_fresh _ _ _ (heightsOK_fresh _ _ _ cll ca)
              (heightsOK_fresh _ _ _ cb cr)
          · simp [inOrder]
          · intro h3; simp only [realHeight] at h3; omega
          · intro _; simp only [realHeight_fresh, realHeight]; omega
      · omega

/-- Rebalancing after an insertion into the right subtree. -/
theorem rebalance_right_spec (d : Employee) (l r : Node) (h : Int) (emp : Employee)
    (bl : BSTOrdered l) (al : Balanced l) (cl : HeightsOK l)
    (br : BSTOrdered r) (ar : Balanced r) (cr : HeightsOK r)
    (kl : ∀ k ∈ keys l, k < d.employee_id) (kr : ∀ k ∈ keys r, d.employee_id < k)
    (hh : (realHeight l ≤ realHeight r + 1 ∧ realHeight r ≤ realHeight l + 1) ∨
          (realHeight r = realHeight l + 2 ∧ Leans emp r)) :
    ∃ t, rebalance d l r h emp = some t ∧ BSTOrdered t ∧ Balanced t ∧ HeightsOK t ∧
      inOrder t = inOrder l ++ d :: inOrder r ∧
      (realHeight r ≤ realHeight l + 1 → t = fresh d l r) ∧
      (realHeight r = realHeight l + 2 → realHeight t = realHeight r) := by
  rcases hh with ⟨h1, h2⟩ | ⟨h1, h2⟩
  · refine ⟨fresh d l r, ?_, bst_fresh d l r bl br kl kr, balanced_fresh d l r al ar h1 h2,
      heightsOK_fresh d l r cl cr, rfl, fun _ => rfl, fun h3 => by omega⟩
    apply rebalance_none_needed
    · rw [height_eq_realHeight l cl, height_eq_realHeight r cr]; omega
    · rw [height_eq_realHeight l cl, height_eq_realHeight r cr]; omega
  · cases r with
    | null => exact absurd h2 (by simp [Leans])
    | mk dr rl rr hr =>
      have hgt : height l - height (Node.mk dr rl rr hr) < -1 := by
        rw [height_eq_realHeight _ cr, height_eq_realHeight l cl]; omega
      obtain ⟨-, -, brl, brr⟩ := id br
      obtain ⟨ar1, ar2, arl, arr⟩ := id ar
      obtain ⟨-, crl, crr⟩ := id cr
      have krl : ∀ k ∈ keys rl, k < dr.employee_id := br.1
      have krr : ∀ k ∈ keys rr, dr.employee_id < k := br.2.1
      have kdr : d.employee_id < dr.employee_id := kr _ (by simp)
      simp only [realHeight] at h1
      rcases h2 with ⟨k1, k2⟩ | ⟨k1, k2⟩ | ⟨k1, k2⟩
      · cases rl with
        | null => simp [realHeight] at k2
        | mk drl a b hrl =>
          obtain ⟨-, -, ba, bb⟩ := id brl
          obtain ⟨al1, al2, aa, ab⟩ := id arl
          obtain ⟨-, ca, cb⟩ := id crl
          have ka : ∀ k ∈ keys a, k < drl.employee_id := brl.1
          have kb : ∀ k ∈ keys b, drl.employee_id < k := brl.2.1
          have kdrl : drl.employee_id < dr.employee_id := krl _ (by simp)
          have kdrl2 : d.employee_id < drl.employee_id := kr _ (by simp)
          simp only [realHeight] at h1 k2 ar1 ar2
          refine ⟨_, rebalance_RL d dr drl l a b rr h hr hrl emp hgt k1, ?_, ?_, ?_, ?_, ?_, ?_⟩
          · refine bst_fresh _ _ _ (bst_fresh _ _ _ bl ba kl ?_) (bst_fresh _ _ _ bb brr ?_ krr)
              ?_ ?_
            · intro k hk; exact kr k (by simp [hk])
            · intro k hk; exact krl k (by simp [hk])
            · intro k hk
              simp only [keys_fresh, List.mem_append, List.mem_cons] at hk
              rcases hk with hk | hk | hk
              · have := kl k hk; omega
              · omega
              · exact ka k hk
            · intro k hk
              simp only [keys_fresh, List.mem_append, List.mem_cons] at hk
              rcases hk with hk | hk | hk
              · exact kb k hk
              · omega
              · have := krr k hk; omega
          · refine balanced_fresh _ _ _ (balanced_fresh _ _ _ al aa ?_ ?_)
              (balanced_fresh _ _ _ ab arr ?_ ?_) ?_ ?_ <;>
              (try simp only [realHeight_fresh]) <;> omega
          · exact heightsOK_fresh _ _ _ (heightsOK_fresh _ _ _ cl ca)
              (heightsOK_fresh _ _ _ cb crr)
          · simp [inOrder]
          · intro h3; simp only [realHeight] at h3; omega
          · intro _; simp only [realHeight_fresh, realHeight]; omega
      · refine ⟨_, rebalance_RR d dr l rl rr h hr emp hgt k1, ?_, ?_, ?_, ?_, ?_, ?_⟩
        · refine bst_fresh _ _ _ (bst_fresh _ _ _ bl brl kl ?_) brr ?_ krr
          · intro k hk; exact kr k (by simp [hk])
          · intro k hk
            simp only [keys_fresh, List.mem_append, List.mem_cons] at hk
            rcases hk with hk | hk | hk
            · have := kl k hk; omega
            · omega
            · exact krl k hk
        · refine balanced_fresh _ _ _ (balanced_fresh _ _ _ al arl ?_ ?_) arr ?_ ?_ <;>
            (try simp only [realHeight_fresh]) <;> omega
        · exact heightsOK_fresh _ _ _ (heightsOK_fresh _ _ _ cl crl) crr
        · simp [inOrder]
        · intro h3; simp only [realHeight] at h3; omega
        · intro _; simp only [realHeight_fresh, realHeight]; omega
      · omega

theorem mem_placeById (e x : Employee) (xs : List Employee) :
    x ∈ placeById e xs ↔ x = e ∨ x ∈ xs := by
  induction xs with
  | nil => simp [placeById]
  | cons y ys ih =>
    simp only [placeById]
    split_ifs
    · simp
    · simp [ih]; tauto

theorem placeById_append_lt (e y : Employee) (xs ys : List Employee)
    (h : e.employee_id < y.employee_id) :
    placeById e (xs ++ y :: ys) = placeById e xs ++ y :: ys := by
  induction xs with
  | nil => simp [placeById, h]
  | cons x xs ih =>
    simp only [List.cons_append, placeById]
    split_ifs
    · rfl
    · simp [ih]

theorem placeById_append_gt (e y : Employee) (xs ys : List Employee)
    (h : y.employee_id < e.employee_id)
    (hx : ∀ x ∈ xs, x.employee_id < y.employee_id) :
    placeById e (xs ++ y :: ys) = xs ++ y :: placeById e ys := by
  induction xs with
  | nil =>
    have : ¬ e.employee_id < y.employee_id := by omega
    simp [placeById, this]
  | cons x xs ih =>
    have h1 := hx x (by simp)
    have : ¬ e.employee_id < x.employee_id := by omega
    have ih2 := ih (fun z hz => hx z (by simp [hz]))
    simp only [List.cons_append, placeById, this, if_false]
    exact congrArg (List.cons x) ih2

theorem mem_keys (t : Node) (k : Int) : k ∈ keys t ↔ ∃ x ∈ inOrder t, x.employee_id = k := by
  simp [keys]

/-! ## One insertion -/

theorem mem_keys_of_inOrder_eq (t t' : Node) (e : Employee)
    (h : inOrder t' = if e.employee_id ∈ keys t then inOrder t else placeById e (inOrder t))
    (k : Int) : k ∈ keys t' ↔ k = e.employee_id ∨ k ∈ keys t := by
  by_cases hm : e.employee_id ∈ keys t
  · rw [if_pos hm] at h
    have : keys t' = keys t := by simp [keys, h]
    rw [this]
    constructor
    · exact Or.inr
    · rintro (h1 | h1)
      · rw [h1]; exact hm
      · exact h1
  · rw [if_neg hm] at h
    simp only [keys, h, List.mem_map, mem_placeById]
    constructor
    · rintro ⟨x, hx | hx, rfl⟩
      · left; rw [hx]
      · right; exact ⟨x, hx, rfl⟩
    · rintro (h1 | ⟨x, hx, rfl⟩)
      · exact ⟨e, Or.inl rfl, h1.symm⟩
      · exact ⟨x, Or.inr hx, rfl⟩

/-- What one `insert` does to a tree that is ordered, balanced and has correct
cached heights. -/
theorem insert_spec (t : Node) (e : Employee)
    (bt : BSTOrdered t) (blt : Balanced t) (ct : HeightsOK t) :
    ∃ t', insert t e = some (t', if e.employee_id ∈ keys t then [e.employee_id] else []) ∧
      BSTOrdered t' ∧ Balanced t' ∧ HeightsOK t' ∧
      inOrder t' = (if e.employee_id ∈ keys t then inOrder t else placeById e (inOrder t)) ∧
      (e.employee_id ∈ keys t → t' = t) ∧
      (realHeight t' = realHeight t ∨ (realHeight t' = realHeight t + 1 ∧ Leans e t')) := by
  induction t with
  | null =>
    refine ⟨newNode e, by simp [insert], ?_, ?_, ?_, by simp [inOrder, newNode, placeById],
      by simp, Or.inr ⟨by simp [newNode, realHeight], ?_⟩⟩
    · simp [newNode, BSTOrdered]
    · simp [newNode, Balanced, realHeight]
    · simp [newNode, HeightsOK, realHeight]
    · simp [newNode, Leans, realHeight]
  | mk d l r h ihl ihr =>
    obtain ⟨kl, kr, bl, br⟩ := id bt
    obtain ⟨b1, b2, al, ar⟩ := id blt
    obtain ⟨hc, cl, cr⟩ := id ct
    have hfresh : fresh d l r = Node.mk d l r h := by
      have := (heightsOK_fresh d l r cl cr).1
      unfold fresh at this ⊢
      rw [this, hc]
      rfl
    rcases lt_trichotomy e.employee_id d.employee_id with hlt | heq | hgt
    · obtain ⟨l', e1, bl', al', cl', io, du, hg⟩ := ihl bl al cl
      have hnr : e.employee_id ∉ keys r := fun hm => by have := kr _ hm; omega
      have hmem : e.employee_id ∈ keys (Node.mk d l r h) ↔ e.employee_id ∈ keys l := by
        simp only [keys_mk, List.mem_append, List.mem_cons]
        constructor
        · rintro (h1 | h1 | h1)
          · exact h1
          · omega
          · exact absurd h1 hnr
        · exact Or.inl
      have kl' : ∀ k ∈ keys l', k < d.employee_id := by
        intro k hk
        rcases (mem_keys_of_inOrder_eq l l' e io k).1 hk with h1 | h1
        · omega
        · exact kl k h1
      have hh : (realHeight l' ≤ realHeight r + 1 ∧ realHeight r ≤ realHeight l' + 1) ∨
          (realHeight l' = realHeight r + 2 ∧ Leans e l') := by
        rcases hg with h1 | ⟨h1, h2⟩
        · left; omega
        · by_cases h3 : realHeight l' = realHeight r + 2
          · exact Or.inr ⟨h3, h2⟩
          · left; omega
      obtain ⟨t', e2, bt', at', ct', io', same, rot⟩ :=
        rebalance_left_spec d l' r h e bl' al' cl' br ar cr kl' kr hh
      refine ⟨t', ?_, bt', at', ct', ?_, ?_, ?_⟩
      · rw [insert, if_pos hlt, e1]
        simp only [e2, Option.map_some']
        by_cases hm : e.employee_id ∈ keys l
        · rw [if_pos hm, if_pos (hmem.2 hm)]
        · rw [if_neg hm, if_neg (fun h1 => hm (hmem.1 h1))]
      · rw [io', io]
        by_cases hm : e.employee_id ∈ keys l
        · rw [if_pos hm, if_pos (hmem.2 hm)]; rfl
        · rw [if_neg hm, if_neg (fun h1 => hm (hmem.1 h1))]
          simp only [inOrder]
          rw [placeById_append_lt e d _ _ hlt]
      · intro hm
        have h1 := du (hmem.1 hm)
        subst h1
        rw [same (by omega), hfresh]
      · simp only [realHeight] at b1 b2 ⊢
        by_cases h3 : realHeight l' ≤ realHeight r + 1
        · have h4 := same h3
          subst h4
          simp only [realHeight_fresh, Leans]
          rcases hg with h1 | ⟨h1, h2⟩
          · left; omega
          · by_cases h5 : realHeight l < realHeight r
            · left; omega
            · right; exact ⟨by omega, Or.inl ⟨hlt, by omega⟩⟩
        · have h4 := rot (by omega)
          left; omega
    · refine ⟨Node.mk d l r h, ?_, bt, blt, ct, ?_, fun _ => rfl, Or.inl rfl⟩
      · have hm : e.employee_id ∈ keys (Node.mk d l r h) := by simp [heq]
        rw [if_pos hm, insert]
        simp [heq]
      · have hm : e.employee_id ∈ keys (Node.mk d l r h) := by simp [heq]
        rw [if_pos hm]
    · obtain ⟨r', e1, br', ar', cr', io, du, hg⟩ := ihr br ar cr
      have hnl : e.employee_id ∉ keys l := fun hm => by have := kl _ hm; omega
      have hmem : e.employee_id ∈ keys (Node.mk d l r h) ↔ e.employee_id ∈ keys r := by
        simp only [keys_mk, List.mem_append, List.mem_cons]
        constructor
        · rintro (h1 | h1 | h1)
          · exact absurd h1 hnl
          · omega
          · exact h1
        · exact fun h1 => Or.inr (Or.inr h1)
      have kr' : ∀ k ∈ keys r', d.employee_id < k := by
        intro k hk
        rcases (mem_keys_of_inOrder_eq r r' e io k).1 hk with h1 | h1
        · omega
        · exact kr k h1
      have hh : (realHeight l ≤ realHeight r' + 1 ∧ realHeight r' ≤ realHeight l + 1) ∨
          (realHeight r' = realHeight l + 2 ∧ Leans e r') := by
        rcases hg with h1 | ⟨h1, h2⟩
        · left; omega
        · by_cases h3 : realHeight r' = realHeight l + 2
          · exact Or.inr ⟨h3, h2⟩
          · left; omega
      obtain ⟨t', e2, bt', at', ct', io', same, rot⟩ :=
        rebalance_right_spec d l r' h e bl al cl br' ar' cr' kl kr' hh
      have hnlt : ¬ e.employee_id < d.employee_id := by omega
      refine ⟨t', ?_, bt', at', ct', ?_, ?_, ?_⟩
      · rw [insert, if_neg hnlt, if_pos hgt, e1]
        simp only [e2, Option.map_some']
        by_cases hm : e.employee_id ∈ keys r
        · rw [if_pos hm, if_pos (hmem.2 hm)]
        · rw [if_neg hm, if_neg (fun h1 => hm (hmem.1 h1))]
      · rw [io', io]
        by_cases hm : e.employee_id ∈ keys r
        · rw [if_pos hm, if_pos (hmem.2 hm)]; rfl
        · rw [if_neg hm, if_neg (fun h1 => hm (hmem.1 h1))]
          simp only [inOrder]
          rw [placeById_append_gt e d _ _ hgt]
          intro x hx
          exact kl _ (List.mem_map_of_mem _ hx)
      · intro hm
        have h1 := du (hmem.1 hm)
        subst h1
        rw [same (by omega), hfresh]
      · simp only [realHeight] at b1 b2 ⊢
        by_cases h3 : realHeight r' ≤ realHeight l + 1
        · have h4 := same h3
          subst h4
          simp only [realHeight_fresh, Leans]
          rcases hg with h1 | ⟨h1, h2⟩
          · left; omega
          · by_cases h5 : realHeight r < realHeight l
            · left; omega
            · right; exact ⟨by omega, Or.inr (Or.inl ⟨hgt, by omega⟩)⟩
        · have h4 := rot (by omega)
          left; omega

/-! ## Sequences of insertions, traversal and search -/

theorem find?_placeById (e : Employee) (k : Int) (xs : List Employee)
    (hn : e.employee_id ∉ xs.map Employee.employee_id) :
    (placeById e xs).find? (fun x => decide (x.employee_id = k)) =
      (xs.find? (fun x => decide (x.employee_id = k))).or
        (if e.employee_id = k then some e else none) := by
  induction xs with
  | nil => by_cases h : e.employee_id = k <;> simp [placeById, List.find?, h]
  | cons x xs ih =>
    have hx : x.employee_id ≠ e.employee_id := fun h => hn (by simp [h])
    have hxs : e.employee_id ∉ xs.map Employee.employee_id := fun h => hn (by simp at h ⊢; right; exact h)
    have ih2 := ih hxs
    simp only [placeById]
    split_ifs with h1 h2 h2
    · have hxk : x.employee_id ≠ k := fun h => hx (h.trans h2.symm)
      have hnone : xs.find? (fun x => decide (x.employee_id = k)) = none := by
        rw [List.find?_eq_none]
        intro y hy hyk
        simp only [decide_eq_true_eq] at hyk
        exact hxs (by rw [h2, ← hyk]; exact List.mem_map_of_mem _ hy)
      simp [List.find?, h2, hxk, hnone]
    · by_cases hxk : x.employee_id = k <;> simp [List.find?, h2, hxk]
    · have hxk : x.employee_id ≠ k := fun h => hx (h.trans h2.symm)
      simp only [List.find?, hxk, decide_False, ih2, if_pos h2]
    · by_cases hxk : x.employee_id = k
      · simp [List.find?, hxk]
      · simp only [List.find?, hxk, decide_False, ih2, if_neg h2]

theorem find?_after_insert (t t' : Node) (e : Employee) (k : Int)
    (h : inOrder t' = if e.employee_id ∈ keys t then inOrder t else placeById e (inOrder t)) :
    (inOrder t').find? (fun x => decide (x.employee_id = k)) =
      ((inOrder t).find? (fun x => decide (x.employee_id = k))).or
        (if e.employee_id = k then some e else none) := by
  by_cases hm : e.employee_id ∈ keys t
  · rw [if_pos hm] at h
    rw [h]
    by_cases hk : e.employee_id = k
    · obtain ⟨x, hx, hxk⟩ := (mem_keys t _).1 hm
      have : ((inOrder t).find? (fun x => decide (x.employee_id = k))).isSome := by
        rw [List.find?_isSome]
        exact ⟨x, hx, by simp [hxk, hk]⟩
      obtain ⟨y, hy⟩ := Option.isSome_iff_exists.1 this
      simp [hy]
    · simp [hk]
  · rw [if_neg hm] at h
    rw [h]
    exact find?_placeById e k _ hm

theorem perm_placeById (e : Employee) (xs : List Employee) :
    (placeById e xs).Perm (e :: xs) := by
  induction xs with
  | nil => simp [placeById]
  | cons x xs ih =>
    simp only [placeById]
    split_ifs
    · exact List.Perm.refl _
    · exact (List.Perm.cons x ih).trans (List.Perm.swap e x xs)

theorem length_placeById (e : Employee) (xs : List Employee) :
    (placeById e xs).length = xs.length + 1 := by
  simpa using (perm_placeById e xs).length_eq

theorem numNodes_eq_length (t : Node) : numNodes t = (inOrder t).length := by
  induction t with
  | null => rfl
  | mk d l r h ihl ihr => simp [numNodes, inOrder, ihl, ihr]; omega

/-- What a sequence of insertions does to a tree that is ordered, balanced and
has correct cached heights. -/
theorem insertAll_spec (es : List Employee) (t : Node)
    (bt : BSTOrdered t) (blt : Balanced t) (ct : HeightsOK t) :
    ∃ t' out, insertAll t es = some (t', out) ∧
      BSTOrdered t' ∧ Balanced t' ∧ HeightsOK t' ∧
      (∀ k, k ∈ keys t' ↔ k ∈ keys t ∨ k ∈ es.map Employee.employee_id) ∧
      (∀ k, (inOrder t').find? (fun x => decide (x.employee_id = k)) =
        ((inOrder t).find? (fun x => decide (x.employee_id = k))).or
          (es.find? (fun x => decide (x.employee_id = k)))) ∧
      ((es.map Employee.employee_id).Nodup → (∀ x ∈ es, x.employee_id ∉ keys t) →
        (inOrder t').Perm (inOrder t ++ es)) := by
  induction es generalizing t with
  | nil =>
    exact ⟨t, [], rfl, bt, blt, ct, by simp, by simp, by simp⟩
  | cons e es ih =>
    obtain ⟨t1, e1, b1, a1, c1, io, -, -⟩ := insert_spec t e bt blt ct
    obtain ⟨t', out', e2, b2, a2, c2, km, fd, pm⟩ := ih t1 b1 a1 c1
    refine ⟨t', (if e.employee_id ∈ keys t then [e.employee_id] else []) ++ out',
      by rw [insertAll, e1]; simp only [e2], b2, a2, c2, ?_, ?_, ?_⟩
    · intro k
      rw [km k, mem_keys_of_inOrder_eq t t1 e io k]
      simp only [List.map_cons, List.mem_cons]
      tauto
    · intro k
      rw [fd k, find?_after_insert t t1 e k io]
      by_cases hk : e.employee_id = k
      · cases hf : (inOrder t).find? (fun x => decide (x.employee_id = k)) <;>
          simp [List.find?, hk]
      · simp [List.find?, hk]
    · intro hnd hnk
      simp only [List.map_cons, List.nodup_cons] at hnd
      have hek : e.employee_id ∉ keys t := hnk e (by simp)
      rw [if_neg hek] at io
      have h1 : ∀ x ∈ es, x.employee_id ∉ keys t1 := by
        intro x hx hm
        rcases (mem_keys_of_inOrder_eq t t1 e (by rw [if_neg hek]; exact io) _).1 hm with h2 | h2
        · exact hnd.1 (by rw [← h2]; exact List.mem_map_of_mem _ hx)
        · exact hnk x (by simp [hx]) h2
      refine (pm hnd.2 h1).trans ?_
      rw [io]
      exact ((perm_placeById e (inOrder t)).append_right es).trans
        (List.perm_middle.symm)

theorem bst_keys_sorted (t : Node) (bt : BSTOrdered t) :
    (keys t).Pairwise (fun a b => a < b) := by
  induction t with
  | null => simp
  | mk d l r h ihl ihr =>
    obtain ⟨kl, kr, bl, br⟩ := id bt
    rw [keys_mk, List.pairwise_append]
    refine ⟨ihl bl, List.pairwise_cons.2 ⟨kr, ihr br⟩, ?_⟩
    intro a ha b hb
    rcases List.mem_cons.1 hb with h1 | h1
    · rw [h1]; exact kl a ha
    · have := kl a ha; have := kr b h1; omega

theorem bst_keys_nodup (t : Node) (bt : BSTOrdered t) : (keys t).Nodup :=
  (bst_keys_sorted t bt).imp (fun h => ne_of_lt h)

theorem search_eq_find? (t : Node) (k : Int) (bt : BSTOrdered t) :
    dataOf (search t k) = (inOrder t).find? (fun x => decide (x.employee_id = k)) := by
  induction t with
  | null => rfl
  | mk d l r h ihl ihr =>
    obtain ⟨kl, kr, bl, br⟩ := id bt
    have nl : ∀ j, d.employee_id ≤ j →
        (inOrder l).find? (fun x => decide (x.employee_id = j)) = none := by
      intro j hj
      rw [List.find?_eq_none]
      intro y hy hyk
      simp only [decide_eq_true_eq] at hyk
      have := kl _ (List.mem_map_of_mem Employee.employee_id hy)
      omega
    have nr : ∀ j, j ≤ d.employee_id →
        (inOrder r).find? (fun x => decide (x.employee_id = j)) = none := by
      intro j hj
      rw [List.find?_eq_none]
      intro y hy hyk
      simp only [decide_eq_true_eq] at hyk
      have := kr _ (List.mem_map_of_mem Employee.employee_id hy)
      omega
    simp only [search, inOrder, List.find?_append]
    rcases lt_trichotomy d.employee_id k with h1 | h1 | h1
    · have h2 : d.employee_id ≠ k := by omega
      rw [if_neg h2, if_pos h1, ihr br, nl k (by omega)]
      simp [List.find?, h2]
    · rw [if_pos h1, nl k (by omega)]
      simp [List.find?, h1, dataOf]
    · have h2 : d.employee_id ≠ k := by omega
      have h3 : ¬ d.employee_id < k := by omega
      rw [if_neg h2, if_neg h3, ihl bl]
      simp [List.find?, h2, nr k (by omega)]

theorem search_ne_null_iff (t : Node) (k : Int) (bt : BSTOrdered t) :
    search t k ≠ Node.null ↔ k ∈ keys t := by
  have h := search_eq_find? t k bt
  rw [mem_keys]
  constructor
  · intro hs
    have : ((inOrder t).find? (fun x => decide (x.employee_id = k))).isSome := by
      rw [← h]
      cases hc : search t k with
      | null => exact absurd hc hs
      | mk => rfl
    rw [List.find?_isSome] at this
    obtain ⟨x, hx, hxk⟩ := this
    exact ⟨x, hx, by simpa using hxk⟩
  · rintro ⟨x, hx, hxk⟩ hs
    have : ((inOrder t).find? (fun x => decide (x.employee_id = k))).isSome := by
      rw [List.find?_isSome]
      exact ⟨x, hx, by simp [hxk]⟩
    rw [← h, hs] at this
    simp [dataOf] at this

/-- Trees reached from the empty tree are ordered, balanced and have correct
cached heights. -/
theorem built_wellFormed (es : List Employee) (t : Node) (out : List Int)
    (h : insertAll Node.null es = some (t, out)) :
    BSTOrdered t ∧ Balanced t ∧ HeightsOK t := by
  obtain ⟨t', out', e, b, a, c, -⟩ := insertAll_spec es Node.null trivial trivial trivial
  rw [e] at h
  cases h
  exact ⟨b, a, c⟩

/-! ## Height bound, sortedness of the traversal, node counts -/

theorem Fib_mono_succ (n : Nat) : Fib n ≤ Fib (n + 1) := by
  cases n with
  | zero => simp [Fib]
  | succ m => simp [Fib]

theorem Fib_mono {m n : Nat} (h : m ≤ n) : Fib m ≤ Fib n := by
  induction h with
  | refl => exact le_refl _
  | step _ ih => exact ih.trans (Fib_mono_succ _)

theorem Fib_le_numNodes (t : Node) (a : Balanced t) :
    Fib (realHeight t + 2) ≤ numNodes t + 1 := by
  induction t with
  | null => simp [Fib, realHeight, numNodes]
  | mk d l r h ihl ihr =>
    obtain ⟨a1, a2, al, ar⟩ := id a
    have hl := ihl al
    have hr := ihr ar
    simp only [realHeight, numNodes]
    rcases le_total (realHeight l) (realHeight r) with hle | hle
    · rw [max_eq_right hle]
      have e : 1 + realHeight r + 2 = (realHeight r + 1) + 2 := by omega
      rw [e, Fib, show realHeight r + 1 + 1 = realHeight r + 2 from rfl]
      have := Fib_mono (show realHeight r + 1 ≤ realHeight l + 2 by omega)
      omega
    · rw [max_eq_left hle]
      have e : 1 + realHeight l + 2 = (realHeight l + 1) + 2 := by omega
      rw [e, Fib, show realHeight l + 1 + 1 = realHeight l + 2 from rfl]
      have := Fib_mono (show realHeight l + 1 ≤ realHeight r + 2 by omega)
      omega

theorem two_pow_le_Fib_sq : ∀ h : Nat, 2 ^ h ≤ Fib (h + 2) ^ 2
  | 0 => by simp [Fib]
  | 1 => by simp [Fib]
  | h + 2 => by
    have ih := two_pow_le_Fib_sq h
    have e : Fib (h + 2 + 2) = Fib (h + 2) + Fib (h + 3) := by simp [Fib]
    have m : Fib (h + 2) ≤ Fib (h + 3) := Fib_mono_succ _
    have : 2 * Fib (h + 2) ≤ Fib (h + 2 + 2) := by omega
    calc 2 ^ (h + 2) = 4 * 2 ^ h := by ring
      _ ≤ 4 * Fib (h + 2) ^ 2 := by omega
      _ = (2 * Fib (h + 2)) ^ 2 := by ring
      _ ≤ Fib (h + 2 + 2) ^ 2 := Nat.pow_le_pow_left this 2

theorem gold_pow_le_Fib : ∀ h : Nat, goldenRatio ^ h ≤ (Fib (h + 2) : ℝ)
  | 0 => by simp [Fib]
  | 1 => by
    have := gold_lt_two
    simp [Fib]
    linarith
  | h + 2 => by
    have ih0 := gold_pow_le_Fib h
    have ih1 := gold_pow_le_Fib (h + 1)
    have e : Fib (h + 2 + 2) = Fib (h + 2) + Fib (h + 3) := by simp [Fib]
    have g : goldenRatio ^ (h + 2) = goldenRatio ^ (h + 1) + goldenRatio ^ h := by
      have := gold_sq
      calc goldenRatio ^ (h + 2) = goldenRatio ^ h * goldenRatio ^ 2 := by ring
        _ = goldenRatio ^ h * (goldenRatio + 1) := by rw [this]
        _ = goldenRatio ^ (h + 1) + goldenRatio ^ h := by ring
    rw [g, e]
    push_cast
    linarith


theorem bst_inOrder_sorted (t : Node) (bt : BSTOrdered t) :
    (inOrder t).Sorted (fun a b => a.employee_id < b.employee_id) :=
  List.pairwise_map.1 (bst_keys_sorted t bt)

theorem numNodes_rightRotate (t t' : Node) (h : rightRotate t = some t') :
    numNodes t' = numNodes t := by
  match t, h with
  | Node.mk dy (Node.mk dx xl T2 hx) yr hy, h =>
    simp only [rightRotate, Option.some.injEq] at h
    subst h
    simp only [updateHeight, numNodes]
    omega

theorem numNodes_leftRotate (t t' : Node) (h : leftRotate t = some t') :
    numNodes t' = numNodes t := by
  match t, h with
  | Node.mk dx xl (Node.mk dy T2 yr hy) hx, h =>
    simp only [leftRotate, Option.some.injEq] at h
    subst h
    simp only [updateHeight, numNodes]
    omega


/-! ## The instrumented functions agree with the plain ones; exits of `insert` -/

theorem rebalance_eq_traced (d : Employee) (l r : Node) (h : Int) (emp : Employee) :
    rebalance d l r h emp = (rebalanceTraced d l r h emp).map Prod.fst := by
  unfold rebalance rebalanceTraced
  simp only []
  cases guardedTest (decide (getBalance (updateHeight (Node.mk d l r h)) > 1)) l
      (fun k => decide (emp.employee_id < k)) with
  | none => rfl
  | some ll =>
    cases ll with
    | true => simp [Option.map_map, Function.comp_def]
    | false =>
      cases guardedTest (decide (getBalance (updateHeight (Node.mk d l r h)) < -1)) r
          (fun k => decide (emp.employee_id > k)) with
      | none => rfl
      | some rr =>
        cases rr with
        | true => simp [Option.map_map, Function.comp_def]
        | false =>
          cases guardedTest (decide (getBalance (updateHeight (Node.mk d l r h)) > 1)) l
              (fun k => decide (emp.employee_id > k)) with
          | none => rfl
          | some lr =>
            cases lr with
            | true =>
              cases leftRotate l with
              | none => rfl
              | some l' => simp [Option.map_map, Function.comp_def]
            | false =>
              cases guardedTest (decide (getBalance (updateHeight (Node.mk d l r h)) < -1)) r
                  (fun k => decide (emp.employee_id < k)) with
              | none => rfl
              | some rl =>
                cases rl with
                | true =>
                  cases rightRotate r with
                  | none => rfl
                  | some r' => simp [Option.map_map, Function.comp_def]
                | false => rfl

theorem insert_eq_traced (t : Node) (emp : Employee) :
    insert t emp = (insertTraced t emp).map fun p => (p.1, p.2.1) := by
  induction t with
  | null => rfl
  | mk d l r h ihl ihr =>
    unfold insert insertTraced
    split_ifs with h1 h2
    · rw [ihl]
      cases insertTraced l emp with
      | none => rfl
      | some p =>
        obtain ⟨l', out, tr⟩ := p
        simp [rebalance_eq_traced, Option.map_map, Function.comp_def]
    · rw [ihr]
      cases insertTraced r emp with
      | none => rfl
      | some p =>
        obtain ⟨r', out, tr⟩ := p
        simp [rebalance_eq_traced, Option.map_map, Function.comp_def]
    · rfl

theorem search_eq_counted (t : Node) (k : Int) : (searchCounted t k).1 = search t k := by
  induction t with
  | null => rfl
  | mk d l r h ihl ihr =>
    unfold searchCounted search
    split_ifs
    · rfl
    · exact ihr
    · exact ihl

theorem searchCounted_le_realHeight (t : Node) (k : Int) :
    (searchCounted t k).2 ≤ realHeight t := by
  induction t with
  | null => simp [searchCounted, realHeight]
  | mk d l r h ihl ihr =>
    unfold searchCounted
    simp only [realHeight]
    split_ifs
    · simp only []; omega
    · simp only []; omega
    · simp only []; omega

theorem rebalanceTraced_none_needed (d : Employee) (l r : Node) (h : Int) (emp : Employee)
    (h1 : -1 ≤ height l - height r) (h2 : height l - height r ≤ 1) :
    rebalanceTraced d l r h emp =
      some (fresh d l r, Exit.returnNode (height l - height r)) := by
  have a1 : ¬ (height l - height r > 1) := by omega
  have a2 : ¬ (height l - height r < -1) := by omega
  simp [rebalanceTraced, guardedTest, updateHeight, getBalance, fresh, a1, a2]

theorem rebalanceTraced_LL (d dl : Employee) (ll lr r : Node) (h hl : Int) (emp : Employee)
    (h1 : height (Node.mk dl ll lr hl) - height r > 1)
    (hk : emp.employee_id < dl.employee_id) :
    rebalanceTraced d (Node.mk dl ll lr hl) r h emp =
      some (fresh dl ll (fresh d lr r), Exit.LL) := by
  simp [rebalanceTraced, guardedTest, updateHeight, getBalance, fresh, h1, hk, keyOf,
    rightRotate]

theorem rebalanceTraced_LR (d dl dlr : Employee) (ll a b r : Node) (h hl hlr : Int)
    (emp : Employee)
    (h1 : height (Node.mk dl ll (Node.mk dlr a b hlr) hl) - height r > 1)
    (hk : dl.employee_id < emp.employee_id) :
    rebalanceTraced d (Node.mk dl ll (Node.mk dlr a b hlr) hl) r h emp
      = some (fresh dlr (fresh dl ll a) (fresh d b r), Exit.LR) := by
  have a1 : ¬ (emp.employee_id < dl.employee_id) := by omega
  have a2 : ¬ (height (Node.mk dl ll (Node.mk dlr a b hlr) hl) - height r < -1) := by omega
  simp [rebalanceTraced, guardedTest, updateHeight, getBalance, fresh, h1, hk, keyOf,
    rightRotate, leftRotate, a1, a2]

theorem rebalanceTraced_RR (d dr : Employee) (l rl rr : Node) (h hr : Int) (emp : Employee)
    (h1 : height l - height (Node.mk dr rl rr hr) < -1)
    (hk : dr.employee_id < emp.employee_id) :
    rebalanceTraced d l (Node.mk dr rl rr hr) h emp =
      some (fresh dr (fresh d l rl) rr, Exit.RR) := by
  have a2 : ¬ (height l - height (Node.mk dr rl rr hr) > 1) := by omega
  simp [rebalanceTraced, guardedTest, updateHeight, getBalance, fresh, h1, hk, keyOf,
    leftRotate, a2]

theorem rebalanceTraced_RL (d dr drl : Employee) (l a b rr : Node) (h hr hrl : Int)
    (emp : Employee)
    (h1 : height l - height (Node.mk dr (Node.mk drl a b hrl) rr hr) < -1)
    (hk : emp.employee_id < dr.employee_id) :
    rebalanceTraced d l (Node.mk dr (Node.mk drl a b hrl) rr hr) h emp
      = some (fresh drl (fresh d l a) (fresh dr b rr), Exit.RL) := by
  have a1 : ¬ (dr.employee_id < emp.employee_id) := by omega
  have a2 : ¬ (height l - height (Node.mk dr (Node.mk drl a b hrl) rr hr) > 1) := by omega
  simp [rebalanceTraced, guardedTest, updateHeight, getBalance, fresh, h1, hk, keyOf,
    rightRotate, leftRotate, a1, a2]

/-- The exit taken when rebalancing after an insertion into the left subtree. -/
theorem rebalanceTraced_left_exit (d : Employee) (l r : Node) (h : Int) (emp : Employee)
    (cl : HeightsOK l) (cr : HeightsOK r)
    (hh : (realHeight l ≤ realHeight r + 1 ∧ realHeight r ≤ realHeight l + 1) ∨
          (realHeight l = realHeight r + 2 ∧ Leans emp l)) :
    ∃ t x, rebalanceTraced d l r h emp = some (t, x) ∧
      (realHeight l ≤ realHeight r + 1 →
        x = Exit.returnNode ((realHeight l : Int) - (realHeight r : Int))) ∧
      (realHeight l = realHeight r + 2 → x = Exit.LL ∨ x = Exit.LR) := by
  rcases hh with ⟨h1, h2⟩ | ⟨h1, h2⟩
  · refine ⟨_, _, rebalanceTraced_none_needed d l r h emp ?_ ?_, ?_, ?_⟩
    · rw [height_eq_realHeight l cl, height_eq_realHeight r cr]; omega
    · rw [height_eq_realHeight l cl, height_eq_realHeight r cr]; omega
    · intro _; rw [height_eq_realHeight l cl, height_eq_realHeight r cr]
    · intro h3; omega
  · cases l with
    | null => exact absurd h2 (by simp [Leans])
    | mk dl ll lr hl =>
      have hgt : height (Node.mk dl ll lr hl) - height r > 1 := by
        rw [height_eq_realHeight _ cl, height_eq_realHeight r cr]; omega
      rcases h2 with ⟨k1, k2⟩ | ⟨k1, k2⟩ | ⟨k1, k2⟩
      · exact ⟨_, _, rebalanceTraced_LL d dl ll lr r h hl emp hgt k1,
          fun h3 => by omega, fun _ => Or.inl rfl⟩
      · cases lr with
        | null => simp [realHeight] at k2
        | mk dlr a b hlr =>
          exact ⟨_, _, rebalanceTraced_LR d dl dlr ll a b r h hl hlr emp hgt k1,
            fun h3 => by omega, fun _ => Or.inr rfl⟩
      · simp only [realHeight] at h1; omega

/-- The exit taken when rebalancing after an insertion into the right subtree. -/
theorem rebalanceTraced_right_exit (d : Employee) (l r : Node) (h : Int) (emp : Employee)
    (cl : HeightsOK l) (cr : HeightsOK r)
    (hh : (realHeight l ≤ realHeight r + 1 ∧ realHeight r ≤ realHeight l + 1) ∨
          (realHeight r = realHeight l + 2 ∧ Leans emp r)) :
    ∃ t x, rebalanceTraced d l r h emp = some (t, x) ∧
      (realHeight r ≤ realHeight l + 1 →
        x = Exit.returnNode ((realHeight l : Int) - (realHeight r : Int))) ∧
      (realHeight r = realHeight l + 2 → x = Exit.RR ∨ x = Exit.RL) := by
  rcases hh with ⟨h1, h2⟩ | ⟨h1, h2⟩
  · refine ⟨_, _, rebalanceTraced_none_needed d l r h emp ?_ ?_, ?_, ?_⟩
    · rw [height_eq_realHeight l cl, height_eq_realHeight r cr]; omega
    · rw [height_eq_realHeight l cl, height_eq_realHeight r cr]; omega
    · intro _; rw [height_eq_realHeight l cl, height_eq_realHeight r cr]
    · intro h3; omega
  · cases r with
    | null => exact absurd h2 (by simp [Leans])
    | mk dr rl rr hr =>
      have hgt : height l - height (Node.mk dr rl rr hr) < -1 := by
        rw [height_eq_realHeight _ cr, height_eq_realHeight l cl]; omega
      rcases h2 with ⟨k1, k2⟩ | ⟨k1, k2⟩ | ⟨k1, k2⟩
      · cases rl with
        | null => simp [realHeight] at k2
        | mk drl a b hrl =>
          exact ⟨_, _, rebalanceTraced_RL d dr drl l a b rr h hr hrl emp hgt k1,
            fun h3 => by omega, fun _ => Or.inr rfl⟩
      · exact ⟨_, _, rebalanceTraced_RR d dr l rl rr h hr emp hgt k1,
          fun h3 => by omega, fun _ => Or.inl rfl⟩
      · simp only [realHeight] at h1; omega

theorem filter_isRotation_snoc (tr : List Exit) (x : Exit) :
    (tr ++ [x]).filter Exit.isRotation =
      tr.filter Exit.isRotation ++ (if x.isRotation then [x] else []) := by
  rw [List.filter_append]
  cases hx : x.isRotation <;> simp [List.filter, hx]

/-- The exits one `insert` takes on a tree that is ordered, balanced and has
correct cached heights. -/
theorem insertTraced_spec (t : Node) (e : Employee)
    (bt : BSTOrdered t) (blt : Balanced t) (ct : HeightsOK t) :
    ∃ t' out tr, insertTraced t e = some (t', out, tr) ∧
      (∀ b, Exit.returnNode b ∈ tr → -1 ≤ b ∧ b ≤ 1) ∧
      (tr.filter Exit.isRotation).length ≤ 1 ∧
      (tr.filter Exit.isRotation ≠ [] → realHeight t' = realHeight t) := by
  induction t with
  | null => exact ⟨newNode e, [], [], rfl, by simp, by simp, by simp⟩
  | mk d l r h ihl ihr =>
    obtain ⟨kl, kr, bl, br⟩ := id bt
    obtain ⟨b1, b2, al, ar⟩ := id blt
    obtain ⟨hc, cl, cr⟩ := id ct
    rcases lt_trichotomy e.employee_id d.employee_id with hlt | heq | hgt
    · obtain ⟨l', outl, trl, e1, rn, cnt, same⟩ := ihl bl al cl
      obtain ⟨l'', e0, bl', al', cl', io, -, hg⟩ := insert_spec l e bl al cl
      have hl'' : l'' = l' := by
        rw [insert_eq_traced, e1] at e0
        simp only [Option.map_some', Option.some.injEq, Prod.mk.injEq] at e0
        exact e0.1.symm
      subst hl''
      have kl' : ∀ k ∈ keys l'', k < d.employee_id := by
        intro k hk
        rcases (mem_keys_of_inOrder_eq l l'' e io k).1 hk with h1 | h1
        · omega
        · exact kl k h1
      have hh : (realHeight l'' ≤ realHeight r + 1 ∧ realHeight r ≤ realHeight l'' + 1) ∨
          (realHeight l'' = realHeight r + 2 ∧ Leans e l'') := by
        rcases hg with h1 | ⟨h1, h2⟩
        · left; omega
        · by_cases h3 : realHeight l'' = realHeight r + 2
          · exact Or.inr ⟨h3, h2⟩
          · left; omega
      obtain ⟨t0, e2, -, -, -, -, keep, rot⟩ :=
        rebalance_left_spec d l'' r h e bl' al' cl' br ar cr kl' kr hh
      obtain ⟨t', x, e3, xk, xr⟩ := rebalanceTraced_left_exit d l'' r h e cl' cr hh
      have ht0 : t0 = t' := by
        rw [rebalance_eq_traced, e3] at e2
        simp only [Option.map_some', Option.some.injEq] at e2
        exact e2.symm
      subst ht0
      refine ⟨t0, outl, trl ++ [x], ?_, ?_, ?_, ?_⟩
      · rw [insertTraced, if_pos hlt, e1]
        simp only [e3, Option.map_some']
      · intro b hb
        rcases List.mem_append.1 hb with h1 | h1
        · exact rn b h1
        · rw [List.mem_singleton] at h1
          by_cases h3 : realHeight l'' ≤ realHeight r + 1
          · rw [xk h3] at h1
            cases h1
            constructor <;> omega
          · rcases xr (by omega) with h4 | h4 <;> rw [h4] at h1 <;> cases h1
      · rw [filter_isRotation_snoc]
        by_cases h3 : realHeight l'' ≤ realHeight r + 1
        · rw [xk h3]
          simpa [Exit.isRotation] using cnt
        · have h4 : trl.filter Exit.isRotation = [] := by
            by_contra hne
            have := same hne
            omega
          rw [h4]
          rcases xr (by omega) with h5 | h5 <;> simp [h5, Exit.isRotation]
      · intro hne
        rw [filter_isRotation_snoc] at hne
        simp only [realHeight] at b1 b2 ⊢
        by_cases h3 : realHeight l'' ≤ realHeight r + 1
        · rw [xk h3] at hne
          simp only [Exit.isRotation, Bool.false_eq_true, if_false, List.append_nil] at hne
          have h4 := same hne
          rw [keep h3, realHeight_fresh, h4]
        · have h4 := rot (by omega)
          rcases hg with h1 | ⟨h1, h2⟩ <;> omega
    · refine ⟨Node.mk d l r h, [e.employee_id], [], ?_, by simp, by simp, by simp⟩
      rw [insertTraced]
      simp [heq]
    · obtain ⟨r', outr, trr, e1, rn, cnt, same⟩ := ihr br ar cr
      obtain ⟨r'', e0, br', ar', cr', io, -, hg⟩ := insert_spec r e br ar cr
      have hr'' : r'' = r' := by
        rw [insert_eq_traced, e1] at e0
        simp only [Option.map_some', Option.some.injEq, Prod.mk.injEq] at e0
        exact e0.1.symm
      subst hr''
      have kr' : ∀ k ∈ keys r'', d.employee_id < k := by
        intro k hk
        rcases (mem_keys_of_inOrder_eq r r'' e io k).1 hk with h1 | h1
        · omega
        · exact kr k h1
      have hh : (realHeight l ≤ realHeight r'' + 1 ∧ realHeight r'' ≤ realHeight l + 1) ∨
          (realHeight r'' = realHeight l + 2 ∧ Leans e r'') := by
        rcases hg with h1 | ⟨h1, h2⟩
        · left; omega
        · by_cases h3 : realHeight r'' = realHeight l + 2
          · exact Or.inr ⟨h3, h2⟩
          · left; omega
      obtain ⟨t0, e2, -, -, -, -, keep, rot⟩ :=
        rebalance_right_spec d l r'' h e bl al cl br' ar' cr' kl kr' hh
      obtain ⟨t', x, e3, xk, xr⟩ := rebalanceTraced_right_exit d l r'' h e cl cr' hh
      have ht0 : t0 = t' := by
        rw [rebalance_eq_traced, e3] at e2
        simp only [Option.map_some', Option.some.injEq] at e2
        exact e2.symm
      subst ht0
      have hnlt : ¬ e.employee_id < d.employee_id := by omega
      refine ⟨t0, outr, trr ++ [x], ?_, ?_, ?_, ?_⟩
      · rw [insertTraced, if_neg hnlt, if_pos hgt, e1]
        simp only [e3, Option.map_some']
      · intro b hb
        rcases List.mem_append.1 hb with h1 | h1
        · exact rn b h1
        · rw [List.mem_singleton] at h1
          by_cases h3 : realHeight r'' ≤ realHeight l + 1
          · rw [xk h3] at h1
            cases h1
            constructor <;> omega
          · rcases xr (by omega) with h4 | h4 <;> rw [h4] at h1 <;> cases h1
      · rw [filter_isRotation_snoc]
        by_cases h3 : realHeight r'' ≤ realHeight l + 1
        · rw [xk h3]
          simpa [Exit.isRotation] using cnt
        · have h4 : trr.filter Exit.isRotation = [] := by
            by_contra hne
            have := same hne
            omega
          rw [h4]
          rcases xr (by omega) with h5 | h5 <;> simp [h5, Exit.isRotation]
      · intro hne
        rw [filter_isRotation_snoc] at hne
        simp only [realHeight] at b1 b2 ⊢
        by_cases h3 : realHeight r'' ≤ realHeight l + 1
        · rw [xk h3] at hne
          simp only [Exit.isRotation, Bool.false_eq_true, if_false, List.append_nil] at hne
          have h4 := same hne
          rw [keep h3, realHeight_fresh, h4]
        · have h4 := rot (by omega)
          rcases hg with h1 | ⟨h1, h2⟩ <;> omega

/-! ## Properties of the index -/

/-- C1: for every finite sequence of records (ids arbitrary, duplicates
allowed) inserted one after another into the empty tree, every insertion
returns a tree, and the tree reached satisfies the BST order invariant (at
every node the ids of the left subtree are strictly smaller and the ids of the
right subtree strictly larger than the node's id); consequently no id occurs
at two nodes.  Every initial segment of a sequence is a sequence, so
this holds after each insertion. -/
theorem C1_bst_order_after_insertions (es : List Employee) :
    ∃ t out, insertAll Node.null es = some (t, out) ∧ BSTOrdered t ∧ (keys t).Nodup := by
  obtain ⟨t, out, e, b, -⟩ := insertAll_spec es Node.null trivial trivial trivial
  exact ⟨t, out, e, b, bst_keys_nodup t b⟩

/-- C2: for every finite sequence of records inserted one after another into
the empty tree, the tree reached satisfies the AVL balance invariant on true
heights: at every node the height of the left subtree minus the height of the
right subtree lies in [-1, 1], an absent subtree having height 0. -/
theorem C2_avl_balance_after_insertions (es : List Employee) :
    ∃ t out, insertAll Node.null es = some (t, out) ∧ Balanced t := by
  obtain ⟨t, out, e, -, a, -⟩ := insertAll_spec es Node.null trivial trivial trivial
  exact ⟨t, out, e, a⟩

/-- C3: for every finite sequence of records inserted into the empty tree, the
ids listed by the in-order traversal of the final tree are strictly
increasing, every id of the sequence is listed exactly once, and no other id
is listed. -/
theorem C3_inOrder_sorted_distinct_ids (es : List Employee) :
    ∃ t out, insertAll Node.null es = some (t, out) ∧
      ((inOrder t).map Employee.employee_id).Pairwise (fun a b => a < b) ∧
      (∀ k ∈ es.map Employee.employee_id,
        ((inOrder t).map Employee.employee_id).count k = 1) ∧
      (∀ k, k ∉ es.map Employee.employee_id →
        ((inOrder t).map Employee.employee_id).count k = 0) := by
  obtain ⟨t, out, e, b, -, -, km, -⟩ := insertAll_spec es Node.null trivial trivial trivial
  refine ⟨t, out, e, bst_keys_sorted t b, ?_, ?_⟩
  · intro k hk
    exact List.count_eq_one_of_mem (bst_keys_nodup t b) ((km k).2 (Or.inr hk))
  · intro k hk
    apply List.count_eq_zero_of_not_mem
    intro hm
    rcases (km k).1 hm with h1 | h1
    · simp at h1
    · exact hk h1

/-- C4: for every finite sequence of records inserted into the empty tree and
every key k, the record of the node returned by search is the first record of
the sequence with id k (all fields), and search returns NULL when no record of
the sequence has id k.  Instance: after inserting id 5 twice with different
names and scores, search for 5 returns the first record. -/
theorem C4_search_returns_first_record :
    (∀ (es : List Employee) (k : Int),
      ∃ t out, insertAll Node.null es = some (t, out) ∧
        dataOf (search t k) = es.find? (fun e => decide (e.employee_id = k)) ∧
        ((∀ e ∈ es, e.employee_id ≠ k) → search t k = Node.null)) ∧
    (insertAll Node.null
        [⟨5, ['A', 'n', 'n'], 4611686018427387904⟩, ⟨5, ['B', 'o', 'b'], 0⟩]).map
      (fun p => (dataOf (search p.1 5), p.2)) =
      some (some ⟨5, ['A', 'n', 'n'], 4611686018427387904⟩, [5]) := by
  constructor
  · intro es k
    obtain ⟨t, out, e, b, -, -, km, fd, -⟩ :=
      insertAll_spec es Node.null trivial trivial trivial
    refine ⟨t, out, e, ?_, ?_⟩
    · rw [search_eq_find? t k b, fd k]
      simp [inOrder]
    · intro hn
      by_contra hs
      rcases (km k).1 ((search_ne_null_iff t k b).1 hs) with h1 | h1
      · simp at h1
      · obtain ⟨x, hx, hxk⟩ := List.mem_map.1 h1
        exact hn x hx hxk
  · decide

/-- C5: for every tree built from the empty tree by a sequence of insertions
and every record whose id is already in the tree, insert returns the very same
tree: same shape, same record at every node, same cached height at every
node. -/
theorem C5_duplicate_insert_leaves_tree_unchanged (es : List Employee) (t : Node)
    (out : List Int) (r : Employee)
    (hbuilt : insertAll Node.null es = some (t, out))
    (hdup : r.employee_id ∈ keys t) :
    ∃ out', insert t r = some (t, out') := by
  obtain ⟨b, a, c⟩ := built_wellFormed es t out hbuilt
  obtain ⟨t', e, -, -, -, -, du, -⟩ := insert_spec t r b a c
  rw [du hdup] at e
  exact ⟨_, e⟩

/-- Instance of C5 on a concrete tree. -/
theorem C5_witness :
    insertAll Node.null [⟨30, [], 1⟩, ⟨20, [], 2⟩, ⟨40, [], 3⟩, ⟨10, [], 4⟩] =
        some (Node.mk ⟨30, [], 1⟩
          (Node.mk ⟨20, [], 2⟩ (Node.mk ⟨10, [], 4⟩ Node.null Node.null 1) Node.null 2)
          (Node.mk ⟨40, [], 3⟩ Node.null Node.null 1) 3, []) ∧
      (10 : Int) ∈ keys (Node.mk ⟨30, [], 1⟩
          (Node.mk ⟨20, [], 2⟩ (Node.mk ⟨10, [], 4⟩ Node.null Node.null 1) Node.null 2)
          (Node.mk ⟨40, [], 3⟩ Node.null Node.null 1) 3) ∧
      ∃ out', insert (Node.mk ⟨30, [], 1⟩
          (Node.mk ⟨20, [], 2⟩ (Node.mk ⟨10, [], 4⟩ Node.null Node.null 1) Node.null 2)
          (Node.mk ⟨40, [], 3⟩ Node.null Node.null 1) 3) ⟨10, ['Z'], 9⟩ =
        some (Node.mk ⟨30, [], 1⟩
          (Node.mk ⟨20, [], 2⟩ (Node.mk ⟨10, [], 4⟩ Node.null Node.null 1) Node.null 2)
          (Node.mk ⟨40, [], 3⟩ Node.null Node.null 1) 3, out') :=
  ⟨by decide, by decide,
    C5_duplicate_insert_leaves_tree_unchanged
      [⟨30, [], 1⟩, ⟨20, [], 2⟩, ⟨40, [], 3⟩, ⟨10, [], 4⟩] _ [] ⟨10, ['Z'], 9⟩
      (by decide) (by decide)⟩

/-- C6: for every tree built from the empty tree by a sequence of insertions
and every record r, insert returns, and the duplicate-id error line is printed
exactly once when r's id is already stored and not at all when it is not;
being stored is the same as search not returning NULL. -/
theorem C6_duplicate_diagnostic_iff_present (es : List Employee) (t : Node)
    (out : List Int) (r : Employee)
    (hbuilt : insertAll Node.null es = some (t, out)) :
    ∃ t' out', insert t r = some (t', out') ∧
      (search t r.employee_id ≠ Node.null ↔ r.employee_id ∈ keys t) ∧
      (search t r.employee_id ≠ Node.null → out' = [r.employee_id]) ∧
      (search t r.employee_id = Node.null → out' = []) := by
  obtain ⟨b, a, c⟩ := built_wellFormed es t out hbuilt
  obtain ⟨t', e, -⟩ := insert_spec t r b a c
  have hiff := search_ne_null_iff t r.employee_id b
  refine ⟨t', _, e, hiff, ?_, ?_⟩
  · intro hs
    rw [if_pos (hiff.1 hs)]
  · intro hs
    rw [if_neg (fun hm => hiff.2 hm hs)]

/-- Instance of C6 on a concrete tree. -/
theorem C6_witness :
    insertAll Node.null [⟨10, [], 1⟩, ⟨20, [], 2⟩, ⟨30, [], 3⟩] =
        some (Node.mk ⟨20, [], 2⟩ (Node.mk ⟨10, [], 1⟩ Node.null Node.null 1)
          (Node.mk ⟨30, [], 3⟩ Node.null Node.null 1) 2, []) ∧
      ∃ t' out', insert (Node.mk ⟨20, [], 2⟩ (Node.mk ⟨10, [], 1⟩ Node.null Node.null 1)
          (Node.mk ⟨30, [], 3⟩ Node.null Node.null 1) 2) ⟨30, ['x'], 7⟩ = some (t', out') ∧
        (search (Node.mk ⟨20, [], 2⟩ (Node.mk ⟨10, [], 1⟩ Node.null Node.null 1)
            (Node.mk ⟨30, [], 3⟩ Node.null Node.null 1) 2) 30 ≠ Node.null ↔
          (30 : Int) ∈ keys (Node.mk ⟨20, [], 2⟩ (Node.mk ⟨10, [], 1⟩ Node.null Node.null 1)
            (Node.mk ⟨30, [], 3⟩ Node.null Node.null 1) 2)) ∧
        (search (Node.mk ⟨20, [], 2⟩ (Node.mk ⟨10, [], 1⟩ Node.null Node.null 1)
            (Node.mk ⟨30, [], 3⟩ Node.null Node.null 1) 2) 30 ≠ Node.null → out' = [30]) ∧
        (search (Node.mk ⟨20, [], 2⟩ (Node.mk ⟨10, [], 1⟩ Node.null Node.null 1)
            (Node.mk ⟨30, [], 3⟩ Node.null Node.null 1) 2) 30 = Node.null → out' = []) :=
  ⟨by decide,
    C6_duplicate_diagnostic_iff_present [⟨10, [], 1⟩, ⟨20, [], 2⟩, ⟨30, [], 3⟩] _ []
      ⟨30, ['x'], 7⟩ (by decide)⟩

/-- C7: every tree built from the empty tree by insertions, with n nodes and
true height h, satisfies `Fib (h + 2) ≤ n + 1`; hence `h ≤ log_phi (n + 1)`
(phi the golden ratio) and `2 ^ h ≤ (n + 1) ^ 2`. -/
theorem C7_avl_height_bound (es : List Employee) (t : Node) (out : List Int)
    (hbuilt : insertAll Node.null es = some (t, out)) :
    Fib (realHeight t + 2) ≤ numNodes t + 1 ∧
    (realHeight t : ℝ) ≤ Real.logb goldenRatio ((numNodes t : ℝ) + 1) ∧
    2 ^ realHeight t ≤ (numNodes t + 1) ^ 2 := by
  obtain ⟨-, a, -⟩ := built_wellFormed es t out hbuilt
  have h1 := Fib_le_numNodes t a
  refine ⟨h1, ?_, ?_⟩
  · have hpos : (0 : ℝ) < (numNodes t : ℝ) + 1 := by positivity
    rw [Real.le_logb_iff_rpow_le one_lt_gold hpos, Real.rpow_natCast]
    have h2 : (Fib (realHeight t + 2) : ℝ) ≤ (numNodes t : ℝ) + 1 := by exact_mod_cast h1
    exact (gold_pow_le_Fib _).trans h2
  · exact (two_pow_le_Fib_sq _).trans (Nat.pow_le_pow_left h1 2)

/-- Instance of C7 on a concrete tree. -/
theorem C7_witness :
    insertAll Node.null [⟨10, [], 1⟩, ⟨20, [], 2⟩, ⟨30, [], 3⟩] =
      some (Node.mk ⟨20, [], 2⟩ (Node.mk ⟨10, [], 1⟩ Node.null Node.null 1)
        (Node.mk ⟨30, [], 3⟩ Node.null Node.null 1) 2, []) ∧
    Fib (realHeight (Node.mk ⟨20, [], 2⟩ (Node.mk ⟨10, [], 1⟩ Node.null Node.null 1)
        (Node.mk ⟨30, [], 3⟩ Node.null Node.null 1) 2) + 2) ≤
      numNodes (Node.mk ⟨20, [], 2⟩ (Node.mk ⟨10, [], 1⟩ Node.null Node.null 1)
        (Node.mk ⟨30, [], 3⟩ Node.null Node.null 1) 2) + 1 ∧
    (realHeight (Node.mk ⟨20, [], 2⟩ (Node.mk ⟨10, [], 1⟩ Node.null Node.null 1)
        (Node.mk ⟨30, [], 3⟩ Node.null Node.null 1) 2) : ℝ) ≤
      Real.logb goldenRatio
        ((numNodes (Node.mk ⟨20, [], 2⟩ (Node.mk ⟨10, [], 1⟩ Node.null Node.null 1)
          (Node.mk ⟨30, [], 3⟩ Node.null Node.null 1) 2) : ℝ) + 1) ∧
    2 ^ realHeight (Node.mk ⟨20, [], 2⟩ (Node.mk ⟨10, [], 1⟩ Node.null Node.null 1)
        (Node.mk ⟨30, [], 3⟩ Node.null Node.null 1) 2) ≤
      (numNodes (Node.mk ⟨20, [], 2⟩ (Node.mk ⟨10, [], 1⟩ Node.null Node.null 1)
        (Node.mk ⟨30, [], 3⟩ Node.null Node.null 1) 2) + 1) ^ 2 :=
  ⟨by decide,
    C7_avl_height_bound [⟨10, [], 1⟩, ⟨20, [], 2⟩, ⟨30, [], 3⟩] _ [] (by decide)⟩

/-- C8: for every tree built from the empty tree by insertions and every record
r whose id is not in the tree, insert returns a tree whose in-order sequence of
records is the in-order sequence of the input tree with r placed immediately
before the first record with a larger id (at the end if there is none); r and
all earlier records appear with all their fields. -/
theorem C8_insert_places_record_in_order (es : List Employee) (t : Node)
    (out : List Int) (r : Employee)
    (hbuilt : insertAll Node.null es = some (t, out))
    (hnew : r.employee_id ∉ keys t) :
    ∃ t' out', insert t r = some (t', out') ∧ inOrder t' = placeById r (inOrder t) := by
  obtain ⟨b, a, c⟩ := built_wellFormed es t out hbuilt
  obtain ⟨t', e, -, -, -, io, -⟩ := insert_spec t r b a c
  rw [if_neg hnew] at io
  exact ⟨t', _, e, io⟩

/-- Instance of C8 on a concrete tree. -/
theorem C8_witness :
    insertAll Node.null [⟨10, [], 1⟩, ⟨30, [], 3⟩] =
        some (Node.mk ⟨10, [], 1⟩ Node.null (Node.mk ⟨30, [], 3⟩ Node.null Node.null 1) 2, []) ∧
      (20 : Int) ∉ keys
        (Node.mk ⟨10, [], 1⟩ Node.null (Node.mk ⟨30, [], 3⟩ Node.null Node.null 1) 2) ∧
      ∃ t' out',
        insert (Node.mk ⟨10, [], 1⟩ Node.null (Node.mk ⟨30, [], 3⟩ Node.null Node.null 1) 2)
          ⟨20, ['M', 'e', 'g'], 5⟩ = some (t', out') ∧
        inOrder t' = placeById ⟨20, ['M', 'e', 'g'], 5⟩ (inOrder
          (Node.mk ⟨10, [], 1⟩ Node.null (Node.mk ⟨30, [], 3⟩ Node.null Node.null 1) 2)) :=
  ⟨by decide, by decide,
    C8_insert_places_record_in_order [⟨10, [], 1⟩, ⟨30, [], 3⟩] _ [] ⟨20, ['M', 'e', 'g'], 5⟩
      (by decide) (by decide)⟩

/-- C9: two finite sequences of records that are permutations of one another
and have pairwise distinct ids give, when inserted into the empty tree, the
same in-order sequence of records. -/
theorem C9_inOrder_independent_of_insertion_order (esA esB : List Employee)
    (hperm : esA.Perm esB) (hdistinct : (esA.map Employee.employee_id).Nodup) :
    ∃ tA outA tB outB, insertAll Node.null esA = some (tA, outA) ∧
      insertAll Node.null esB = some (tB, outB) ∧ inOrder tA = inOrder tB := by
  obtain ⟨tA, oA, eA, bA, -, -, -, -, pA⟩ :=
    insertAll_spec esA Node.null trivial trivial trivial
  obtain ⟨tB, oB, eB, bB, -, -, -, -, pB⟩ :=
    insertAll_spec esB Node.null trivial trivial trivial
  have hdB : (esB.map Employee.employee_id).Nodup :=
    (hperm.map Employee.employee_id).nodup_iff.1 hdistinct
  have qA := pA hdistinct (by simp)
  have qB := pB hdB (by simp)
  simp only [inOrder, List.nil_append] at qA qB
  have hp : (inOrder tA).Perm (inOrder tB) := (qA.trans hperm).trans qB.symm
  haveI : IsAntisymm Employee (fun a b => a.employee_id < b.employee_id) :=
    ⟨fun a b h1 h2 => absurd h1 (not_lt_of_gt h2)⟩
  exact ⟨tA, oA, tB, oB, eA, eB,
    List.eq_of_perm_of_sorted hp (bst_inOrder_sorted tA bA) (bst_inOrder_sorted tB bB)⟩

/-- Instance of C9 on a concrete tree. -/
theorem C9_witness :
    ([⟨1, [], 1⟩, ⟨2, [], 2⟩, ⟨3, [], 3⟩] : List Employee).Perm
        [⟨2, [], 2⟩, ⟨1, [], 1⟩, ⟨3, [], 3⟩] ∧
      (([⟨1, [], 1⟩, ⟨2, [], 2⟩, ⟨3, [], 3⟩] : List Employee).map
        Employee.employee_id).Nodup ∧
      ∃ tA outA tB outB,
        insertAll Node.null [⟨1, [], 1⟩, ⟨2, [], 2⟩, ⟨3, [], 3⟩] = some (tA, outA) ∧
        insertAll Node.null [⟨2, [], 2⟩, ⟨1, [], 1⟩, ⟨3, [], 3⟩] = some (tB, outB) ∧
        inOrder tA = inOrder tB :=
  ⟨by decide, by decide,
    C9_inOrder_independent_of_insertion_order _ _ (by decide) (by decide)⟩

/-- C10: for every tree built from the empty tree by insertions and every
record r, insert returns a tree with exactly one node more when r's id is not
in the tree and with the same number of nodes when it is; and a rotation
returns a tree with the same number of nodes as its input. -/
theorem C10_node_count (es : List Employee) (t : Node) (out : List Int) (r : Employee)
    (hbuilt : insertAll Node.null es = some (t, out)) :
    (∃ t' out', insert t r = some (t', out') ∧
      (r.employee_id ∉ keys t → numNodes t' = numNodes t + 1) ∧
      (r.employee_id ∈ keys t → numNodes t' = numNodes t)) ∧
    (∀ y y', rightRotate y = some y' → numNodes y' = numNodes y) ∧
    (∀ x x', leftRotate x = some x' → numNodes x' = numNodes x) := by
  obtain ⟨b, a, c⟩ := built_wellFormed es t out hbuilt
  obtain ⟨t', e, -, -, -, io, du, -⟩ := insert_spec t r b a c
  refine ⟨⟨t', _, e, ?_, ?_⟩, numNodes_rightRotate, numNodes_leftRotate⟩
  · intro hn
    rw [if_neg hn] at io
    rw [numNodes_eq_length, numNodes_eq_length, io, length_placeById]
  · intro hm
    rw [du hm]

/-- Instance of C10 on a concrete tree. -/
theorem C10_witness :
    insertAll Node.null [⟨10, [], 1⟩, ⟨30, [], 3⟩] =
      some (Node.mk ⟨10, [], 1⟩ Node.null (Node.mk ⟨30, [], 3⟩ Node.null Node.null 1) 2, []) ∧
    (∃ t' out',
      insert (Node.mk ⟨10, [], 1⟩ Node.null (Node.mk ⟨30, [], 3⟩ Node.null Node.null 1) 2)
        ⟨20, [], 5⟩ = some (t', out') ∧
      ((20 : Int) ∉ keys
          (Node.mk ⟨10, [], 1⟩ Node.null (Node.mk ⟨30, [], 3⟩ Node.null Node.null 1) 2) →
        numNodes t' = numNodes
          (Node.mk ⟨10, [], 1⟩ Node.null (Node.mk ⟨30, [], 3⟩ Node.null Node.null 1) 2) + 1) ∧
      ((20 : Int) ∈ keys
          (Node.mk ⟨10, [], 1⟩ Node.null (Node.mk ⟨30, [], 3⟩ Node.null Node.null 1) 2) →
        numNodes t' = numNodes
          (Node.mk ⟨10, [], 1⟩ Node.null (Node.mk ⟨30, [], 3⟩ Node.null Node.null 1) 2))) ∧
    (∀ y y', rightRotate y = some y' → numNodes y' = numNodes y) ∧
    (∀ x x', leftRotate x = some x' → numNodes x' = numNodes x) :=
  ⟨by decide, C10_node_count [⟨10, [], 1⟩, ⟨30, [], 3⟩] _ [] ⟨20, [], 5⟩ (by decide)⟩

/-! ## Cached heights, scenarios, search cost, rotations and exits -/

theorem heightsOK_of_mem_subtrees (t s : Node) (ct : HeightsOK t) (hs : s ∈ subtrees t) :
    HeightsOK s := by
  induction t with
  | null => simp [subtrees] at hs
  | mk d l r h ihl ihr =>
    obtain ⟨-, cl, cr⟩ := id ct
    simp only [subtrees, List.mem_cons, List.mem_append] at hs
    rcases hs with h1 | h1 | h1
    · rw [h1]; exact ct
    · exact ihl cl h1
    · exact ihr cr h1

theorem getBalance_eq_realBalance (t : Node) (ct : HeightsOK t) :
    getBalance t = realBalance t := by
  cases t with
  | null => rfl
  | mk d l r h =>
    obtain ⟨-, cl, cr⟩ := id ct
    simp only [getBalance, realBalance, height_eq_realHeight l cl, height_eq_realHeight r cr]

/-- C11: for every finite sequence of records inserted into the empty tree,
the cached height of every node of the tree reached equals the true height of
the subtree rooted there (1 + the larger of the children's true heights, 0 for
an absent subtree); so `height` returns the true height and `getBalance` the
true balance factor, at the root and at every node. -/
theorem C11_cached_heights_are_true_heights (es : List Employee) :
    ∃ t out, insertAll Node.null es = some (t, out) ∧ HeightsOK t ∧
      height t = realHeight t ∧ getBalance t = realBalance t ∧
      ∀ s ∈ subtrees t, height s = realHeight s ∧ getBalance s = realBalance s := by
  obtain ⟨t, out, e, -, -, c, -⟩ := insertAll_spec es Node.null trivial trivial trivial
  refine ⟨t, out, e, c, height_eq_realHeight t c, getBalance_eq_realBalance t c, ?_⟩
  intro s hs
  have cs := heightsOK_of_mem_subtrees t s c hs
  exact ⟨height_eq_realHeight s cs, getBalance_eq_realBalance s cs⟩

/-- C12: for records with ids a < b < c inserted in that order into the empty
tree, the first insertion takes no rebalancing step, the second returns the
root unrotated, and the third takes exactly one rotation exit, the RR case (a
single `leftRotate`) at the root; the tree reached has the record b at the
root with the leaves a and c as children (cached heights 2, 1, 1) and its
traversal is a, b, c. -/
theorem C12_ascending_triple_single_left_rotation (ea eb ec : Employee)
    (hab : ea.employee_id < eb.employee_id) (hbc : eb.employee_id < ec.employee_id) :
    insertTraced Node.null ea = some (newNode ea, [], []) ∧
    insertTraced (newNode ea) eb =
      some (Node.mk ea Node.null (newNode eb) 2, [], [Exit.returnNode (-1)]) ∧
    insertTraced (Node.mk ea Node.null (newNode eb) 2) ec =
      some (Node.mk eb (Node.mk ea Node.null Node.null 1) (Node.mk ec Node.null Node.null 1) 2,
        [], [Exit.returnNode (-1), Exit.RR]) ∧
    insertAll Node.null [ea, eb, ec] =
      some (Node.mk eb (Node.mk ea Node.null Node.null 1) (Node.mk ec Node.null Node.null 1) 2,
        []) ∧
    inOrder (Node.mk eb (Node.mk ea Node.null Node.null 1)
      (Node.mk ec Node.null Node.null 1) 2) = [ea, eb, ec] := by
  have h1 : ¬ eb.employee_id < ea.employee_id := by omega
  have h2 : ¬ ec.employee_id < ea.employee_id := by omega
  have h3 : ea.employee_id < ec.employee_id := by omega
  have h4 : ¬ ec.employee_id < eb.employee_id := by omega
  have t1 : insertTraced Node.null ea = some (newNode ea, [], []) := rfl
  have t2 : insertTraced (newNode ea) eb =
      some (Node.mk ea Node.null (newNode eb) 2, [], [Exit.returnNode (-1)]) := by
    simp [insertTraced, newNode, h1, hab, rebalanceTraced, guardedTest, updateHeight,
      getBalance, height, max]
  have t3 : insertTraced (Node.mk ea Node.null (newNode eb) 2) ec =
      some (Node.mk eb (Node.mk ea Node.null Node.null 1)
        (Node.mk ec Node.null Node.null 1) 2, [], [Exit.returnNode (-1), Exit.RR]) := by
    simp [insertTraced, newNode, h2, h3, h4, hbc, rebalanceTraced, guardedTest, updateHeight,
      getBalance, height, max, keyOf, leftRotate]
  refine ⟨t1, t2, t3, ?_, rfl⟩
  have i1 : insert Node.null ea = some (newNode ea, []) := rfl
  have i2 := insert_eq_traced (newNode ea) eb
  have i3 := insert_eq_traced (Node.mk ea Node.null (newNode eb) 2) ec
  rw [t2] at i2
  rw [t3] at i3
  simp only [Option.map_some'] at i2 i3
  simp [insertAll, i1, i2, i3]

/-- Instance of C12 at the ids 10, 20, 30. -/
theorem C12_witness :
    ((10 : Int) < 20 ∧ (20 : Int) < 30) ∧
    insertTraced Node.null ⟨10, [], 1⟩ = some (newNode ⟨10, [], 1⟩, [], []) ∧
    insertTraced (newNode ⟨10, [], 1⟩) ⟨20, [], 2⟩ =
      some (Node.mk ⟨10, [], 1⟩ Node.null (newNode ⟨20, [], 2⟩) 2, [],
        [Exit.returnNode (-1)]) ∧
    insertTraced (Node.mk ⟨10, [], 1⟩ Node.null (newNode ⟨20, [], 2⟩) 2) ⟨30, [], 3⟩ =
      some (Node.mk ⟨20, [], 2⟩ (Node.mk ⟨10, [], 1⟩ Node.null Node.null 1)
        (Node.mk ⟨30, [], 3⟩ Node.null Node.null 1) 2, [], [Exit.returnNode (-1), Exit.RR]) ∧
    insertAll Node.null [⟨10, [], 1⟩, ⟨20, [], 2⟩, ⟨30, [], 3⟩] =
      some (Node.mk ⟨20, [], 2⟩ (Node.mk ⟨10, [], 1⟩ Node.null Node.null 1)
        (Node.mk ⟨30, [], 3⟩ Node.null Node.null 1) 2, []) ∧
    inOrder (Node.mk ⟨20, [], 2⟩ (Node.mk ⟨10, [], 1⟩ Node.null Node.null 1)
      (Node.mk ⟨30, [], 3⟩ Node.null Node.null 1) 2) =
      [⟨10, [], 1⟩, ⟨20, [], 2⟩, ⟨30, [], 3⟩] :=
  ⟨by decide,
    C12_ascending_triple_single_left_rotation ⟨10, [], 1⟩ ⟨20, [], 2⟩ ⟨30, [], 3⟩
      (by decide) (by decide)⟩

/-- C13: inserting records with ids 30, 20, 40, 10 (any names and scores) in
that order into the empty tree gives the tree with root 30, left child 20
whose left child is the leaf 10, and right child the leaf 40; it has 4 nodes,
true height 3, is balanced at every node, and its traversal lists the ids
10, 20, 30, 40. -/
theorem C13_scenario_30_20_40_10 (n1 n2 n3 n4 : List Char) (s1 s2 s3 s4 : Nat) :
    insertAll Node.null [⟨30, n1, s1⟩, ⟨20, n2, s2⟩, ⟨40, n3, s3⟩, ⟨10, n4, s4⟩] =
      some (Node.mk ⟨30, n1, s1⟩
        (Node.mk ⟨20, n2, s2⟩ (Node.mk ⟨10, n4, s4⟩ Node.null Node.null 1) Node.null 2)
        (Node.mk ⟨40, n3, s3⟩ Node.null Node.null 1) 3, []) ∧
    numNodes (Node.mk ⟨30, n1, s1⟩
        (Node.mk ⟨20, n2, s2⟩ (Node.mk ⟨10, n4, s4⟩ Node.null Node.null 1) Node.null 2)
        (Node.mk ⟨40, n3, s3⟩ Node.null Node.null 1) 3) = 4 ∧
    realHeight (Node.mk ⟨30, n1, s1⟩
        (Node.mk ⟨20, n2, s2⟩ (Node.mk ⟨10, n4, s4⟩ Node.null Node.null 1) Node.null 2)
        (Node.mk ⟨40, n3, s3⟩ Node.null Node.null 1) 3) = 3 ∧
    Balanced (Node.mk ⟨30, n1, s1⟩
        (Node.mk ⟨20, n2, s2⟩ (Node.mk ⟨10, n4, s4⟩ Node.null Node.null 1) Node.null 2)
        (Node.mk ⟨40, n3, s3⟩ Node.null Node.null 1) 3) ∧
    (inOrder (Node.mk ⟨30, n1, s1⟩
        (Node.mk ⟨20, n2, s2⟩ (Node.mk ⟨10, n4, s4⟩ Node.null Node.null 1) Node.null 2)
        (Node.mk ⟨40, n3, s3⟩ Node.null Node.null 1) 3)).map Employee.employee_id =
      [10, 20, 30, 40] := by
  refine ⟨?_, rfl, rfl, ?_, rfl⟩
  · simp [insertAll, insert, newNode, rebalance, guardedTest, updateHeight, getBalance,
      height, max]
  · simp [Balanced, realHeight]

/-- C15: on the empty tree search returns NULL for every key (examining no
node) and the traversal prints nothing. -/
theorem C15_empty_tree :
    (∀ k : Int, search Node.null k = Node.null ∧ searchCounted Node.null k = (Node.null, 0)) ∧
    inOrder Node.null = [] :=
  ⟨fun _ => ⟨rfl, rfl⟩, rfl⟩

theorem keyOf_search (t : Node) (k : Int) :
    search t k = Node.null ∨ keyOf (search t k) = some k := by
  induction t with
  | null => exact Or.inl rfl
  | mk d l r h ihl ihr =>
    unfold search
    split_ifs with h1 h2
    · right; simp [keyOf, h1]
    · exact ihr
    · exact ihl

theorem realHeight_le_seven_of_numNodes (t : Node) (a : Balanced t) (hn : numNodes t = 50) :
    realHeight t ≤ 7 := by
  by_contra hc
  have h1 := Fib_le_numNodes t a
  have h2 : Fib 10 ≤ Fib (realHeight t + 2) := Fib_mono (by omega)
  have h3 : Fib 10 = 55 := by decide
  omega

theorem mem_ascendingIds (n : Nat) (k : Int) (h1 : 1 ≤ k) (h2 : k ≤ n) :
    k ∈ ascendingIds n := by
  unfold ascendingIds
  rw [List.mem_map]
  refine ⟨k.toNat, ?_, by simp only [Int.ofNat_eq_coe]; omega⟩
  rw [List.mem_range'_1]
  omega

theorem nodup_ascendingIds (n : Nat) : (ascendingIds n).Nodup := by
  unfold ascendingIds
  exact (List.nodup_range' 1 n).map (fun a b h => Int.ofNat.inj h)

/-- C14: after inserting 50 records whose ids are 1, 2, ..., 50 in that order
into the empty tree, for each k from 1 to 50 search returns the node holding
id k and examines at most 9 nodes on the way. -/
theorem C14_fifty_ascending_search_cost (es : List Employee)
    (hids : es.map Employee.employee_id = ascendingIds 50) :
    ∃ t out, insertAll Node.null es = some (t, out) ∧
      ∀ k : Int, 1 ≤ k → k ≤ 50 →
        (searchCounted t k).1 = search t k ∧ keyOf (search t k) = some k ∧
        (searchCounted t k).2 ≤ 9 := by
  obtain ⟨t, out, e, b, a, -, km, -, pm⟩ :=
    insertAll_spec es Node.null trivial trivial trivial
  have hnd : (es.map Employee.employee_id).Nodup := by
    rw [hids]; exact nodup_ascendingIds 50
  have hlen : es.length = 50 := by
    have := congrArg List.length hids
    simpa [ascendingIds] using this
  have hn : numNodes t = 50 := by
    rw [numNodes_eq_length, (pm hnd (by simp)).length_eq]
    simpa [inOrder] using hlen
  have hh := realHeight_le_seven_of_numNodes t a hn
  refine ⟨t, out, e, ?_⟩
  intro k h1 h2
  refine ⟨search_eq_counted t k, ?_, ?_⟩
  · have hk : k ∈ keys t := by
      rw [km k, hids]
      exact Or.inr (mem_ascendingIds 50 k h1 (by exact_mod_cast h2))
    rcases keyOf_search t k with h3 | h3
    · exact absurd h3 ((search_ne_null_iff t k b).2 hk)
    · exact h3
  · have := searchCounted_le_realHeight t k
    omega

/-- Instance of C14 on fifty records with empty names. -/
theorem C14_witness :
    ((List.range' 1 50).map fun i : Nat => (⟨Int.ofNat i, [], i⟩ : Employee)).map
        Employee.employee_id = ascendingIds 50 ∧
    ∃ t out, insertAll Node.null
        ((List.range' 1 50).map fun i : Nat => (⟨Int.ofNat i, [], i⟩ : Employee)) = some (t, out) ∧
      ∀ k : Int, 1 ≤ k → k ≤ 50 →
        (searchCounted t k).1 = search t k ∧ keyOf (search t k) = some k ∧
        (searchCounted t k).2 ≤ 9 :=
  ⟨by decide, C14_fifty_ascending_search_cost _ (by decide)⟩

theorem cString_eq_self (s : List Char) (h : NUL ∉ s) : cString s = s := by
  unfold cString
  rw [List.takeWhile_eq_self_iff]
  intro x hx
  simp only [bne_iff_ne, ne_eq]
  intro hx2
  exact h (hx2 ▸ hx)

theorem cString_padded (s : List Char) (n : Nat) (h : NUL ∉ s) :
    cString (s ++ List.replicate n NUL ++ [NUL]) = s := by
  unfold cString
  rw [List.append_assoc, List.takeWhile_append_of_pos]
  · cases n with
    | zero => simp [List.takeWhile]
    | succ m => simp [List.replicate, List.takeWhile]
  · intro x hx
    simp only [bne_iff_ne, ne_eq]
    intro hx2
    exact h (hx2 ▸ hx)

/-- C16: for every id, every name (the characters of a C string, so without
the terminator) and every score, createEmployee returns a record with that id
and that score whose name is the input name when it has at most 99 characters
and its first 99 characters otherwise; the stored name always ends within the
buffer (at most 99 characters, no terminator inside). -/
theorem C16_createEmployee_fields (id : Int) (name : List Char) (score : Nat)
    (hname : NUL ∉ name) :
    (createEmployee id name score).employee_id = id ∧
    (createEmployee id name score).performance_score = score ∧
    (name.length ≤ 99 → (createEmployee id name score).name = name) ∧
    (99 < name.length → (createEmployee id name score).name = name.take 99) ∧
    (createEmployee id name score).name.length ≤ 99 ∧
    NUL ∉ (createEmployee id name score).name := by
  have hn : (createEmployee id name score).name = name.take 99 := by
    simp only [createEmployee, strncpy, cString_eq_self name hname]
    exact cString_padded _ _ (fun hm => hname (List.mem_of_mem_take hm))
  refine ⟨rfl, rfl, ?_, ?_, ?_, ?_⟩
  · intro h; rw [hn, List.take_of_length_le h]
  · intro _; exact hn
  · rw [hn, List.length_take]; omega
  · rw [hn]; exact fun hm => hname (List.mem_of_mem_take hm)

/-- Instance of C16 on a name of 120 characters. -/
theorem C16_witness :
    NUL ∉ List.replicate 120 'x' ∧
    (createEmployee 7 (List.replicate 120 'x') 0).employee_id = 7 ∧
    (createEmployee 7 (List.replicate 120 'x') 0).performance_score = 0 ∧
    ((List.replicate 120 'x').length ≤ 99 →
      (createEmployee 7 (List.replicate 120 'x') 0).name = List.replicate 120 'x') ∧
    (99 < (List.replicate 120 'x').length →
      (createEmployee 7 (List.replicate 120 'x') 0).name = (List.replicate 120 'x').take 99) ∧
    (createEmployee 7 (List.replicate 120 'x') 0).name.length ≤ 99 ∧
    NUL ∉ (createEmployee 7 (List.replicate 120 'x') 0).name :=
  ⟨by decide, C16_createEmployee_fields 7 (List.replicate 120 'x') 0 (by decide)⟩

theorem bst_of_keys_sorted (t : Node) (h : (keys t).Pairwise (fun a b => a < b)) :
    BSTOrdered t := by
  induction t with
  | null => trivial
  | mk d l r c ihl ihr =>
    rw [keys_mk, List.pairwise_append, List.pairwise_cons] at h
    obtain ⟨hl, ⟨hdr, hr⟩, hlr⟩ := h
    exact ⟨fun k hk => hlr k hk _ (List.mem_cons_self _ _), hdr, ihl hl, ihr hr⟩

theorem bst_of_inOrder_eq (t t' : Node) (h : inOrder t' = inOrder t) (bt : BSTOrdered t) :
    BSTOrdered t' := by
  apply bst_of_keys_sorted
  have : keys t' = keys t := by simp [keys, h]
  rw [this]
  exact bst_keys_sorted t bt

/-- C17: on every tree whose root has a left child rightRotate returns a tree
with the same in-order sequence of records, and on every tree whose root has a
right child leftRotate does; each maps a BST-ordered tree to a BST-ordered
tree. -/
theorem C17_rotations_preserve_inOrder (dx dy : Employee) (a b c : Node) (hx hy : Int) :
    (∃ t', rightRotate (Node.mk dy (Node.mk dx a b hx) c hy) = some t' ∧
      inOrder t' = inOrder (Node.mk dy (Node.mk dx a b hx) c hy) ∧
      (BSTOrdered (Node.mk dy (Node.mk dx a b hx) c hy) → BSTOrdered t')) ∧
    (∃ t', leftRotate (Node.mk dx a (Node.mk dy b c hy) hx) = some t' ∧
      inOrder t' = inOrder (Node.mk dx a (Node.mk dy b c hy) hx) ∧
      (BSTOrdered (Node.mk dx a (Node.mk dy b c hy) hx) → BSTOrdered t')) := by
  have e1 : inOrder (updateHeight (Node.mk dx a (updateHeight (Node.mk dy b c hy)) hx)) =
      inOrder (Node.mk dy (Node.mk dx a b hx) c hy) := by
    simp [updateHeight, inOrder]
  have e2 : inOrder (updateHeight (Node.mk dy (updateHeight (Node.mk dx a b hx)) c hy)) =
      inOrder (Node.mk dx a (Node.mk dy b c hy) hx) := by
    simp [updateHeight, inOrder]
  exact ⟨⟨_, rfl, e1, bst_of_inOrder_eq _ _ e1⟩, ⟨_, rfl, e2, bst_of_inOrder_eq _ _ e2⟩⟩

/-- C18: on every tree and for every key, search examines at most as many
nodes as the true height of the tree; on a tree built from the empty tree by
insertions, holding n records, it examines at most `log_phi (n + 1)` nodes
(phi the golden ratio). -/
theorem C18_search_cost_bounded_by_height (t : Node) (k : Int)
    (es : List Employee) (b : Node) (out : List Int) (j : Int)
    (hbuilt : insertAll Node.null es = some (b, out)) :
    (searchCounted t k).2 ≤ realHeight t ∧
    ((searchCounted b j).2 : ℝ) ≤ Real.logb goldenRatio ((numNodes b : ℝ) + 1) := by
  refine ⟨searchCounted_le_realHeight t k, ?_⟩
  obtain ⟨-, a, -⟩ := built_wellFormed es b out hbuilt
  have h1 := Fib_le_numNodes b a
  have hpos : (0 : ℝ) < (numNodes b : ℝ) + 1 := by positivity
  have h2 : (Fib (realHeight b + 2) : ℝ) ≤ (numNodes b : ℝ) + 1 := by exact_mod_cast h1
  have h3 : ((realHeight b : ℕ) : ℝ) ≤ Real.logb goldenRatio ((numNodes b : ℝ) + 1) := by
    rw [Real.le_logb_iff_rpow_le one_lt_gold hpos, Real.rpow_natCast]
    exact (gold_pow_le_Fib _).trans h2
  have h4 : ((searchCounted b j).2 : ℝ) ≤ ((realHeight b : ℕ) : ℝ) := by
    exact_mod_cast searchCounted_le_realHeight b j
  exact h4.trans h3

/-- Instance of C18 on the tree built from the ids 10, 20, 30. -/
theorem C18_witness :
    insertAll Node.null [⟨10, [], 1⟩, ⟨20, [], 2⟩, ⟨30, [], 3⟩] =
      some (Node.mk ⟨20, [], 2⟩ (Node.mk ⟨10, [], 1⟩ Node.null Node.null 1)
        (Node.mk ⟨30, [], 3⟩ Node.null Node.null 1) 2, []) ∧
    (searchCounted (Node.mk ⟨5, [], 0⟩ Node.null Node.null 9) 6).2 ≤
      realHeight (Node.mk ⟨5, [], 0⟩ Node.null Node.null 9) ∧
    ((searchCounted (Node.mk ⟨20, [], 2⟩ (Node.mk ⟨10, [], 1⟩ Node.null Node.null 1)
        (Node.mk ⟨30, [], 3⟩ Node.null Node.null 1) 2) 30).2 : ℝ) ≤
      Real.logb goldenRatio
        ((numNodes (Node.mk ⟨20, [], 2⟩ (Node.mk ⟨10, [], 1⟩ Node.null Node.null 1)
          (Node.mk ⟨30, [], 3⟩ Node.null Node.null 1) 2) : ℝ) + 1) :=
  ⟨by decide,
    C18_search_cost_bounded_by_height (Node.mk ⟨5, [], 0⟩ Node.null Node.null 9) 6
      [⟨10, [], 1⟩, ⟨20, [], 2⟩, ⟨30, [], 3⟩] _ [] 30 (by decide)⟩

/-- C19: on every tree that is BST-ordered, balanced and has correct cached
heights, and for every record, insert returns a tree: no step of it, in
particular no test of a rotation case and no rotation, single or inner, reads
through an absent child.  Every node of the insertion path that reaches the
final `return node` does so with a balance factor in [-1, 1], and the tree
returned is again balanced with correct cached heights. -/
theorem C19_insert_reads_no_absent_child (t : Node) (emp : Employee)
    (hbst : BSTOrdered t) (hbal : Balanced t) (hcached : HeightsOK t) :
    ∃ t' out tr, insertTraced t emp = some (t', out, tr) ∧
      insert t emp = some (t', out) ∧
      (∀ b, Exit.returnNode b ∈ tr → -1 ≤ b ∧ b ≤ 1) ∧
      BSTOrdered t' ∧ Balanced t' ∧ HeightsOK t' := by
  obtain ⟨t', out, tr, e1, rn, -, -⟩ := insertTraced_spec t emp hbst hbal hcached
  obtain ⟨t'', e0, b', a', c', -⟩ := insert_spec t emp hbst hbal hcached
  have e2 : insert t emp = some (t', out) := by
    rw [insert_eq_traced, e1]; rfl
  have ht : t'' = t' := by
    rw [e2] at e0
    simp only [Option.some.injEq, Prod.mk.injEq] at e0
    exact e0.1.symm
  subst ht
  exact ⟨t'', out, tr, e1, e2, rn, b', a', c'⟩

/-- Instance of C19: inserting id 15 into the tree built from 30, 20, 40, 10. -/
theorem C19_witness :
    (BSTOrdered (Node.mk ⟨30, [], 1⟩
        (Node.mk ⟨20, [], 2⟩ (Node.mk ⟨10, [], 4⟩ Node.null Node.null 1) Node.null 2)
        (Node.mk ⟨40, [], 3⟩ Node.null Node.null 1) 3) ∧
      Balanced (Node.mk ⟨30, [], 1⟩
        (Node.mk ⟨20, [], 2⟩ (Node.mk ⟨10, [], 4⟩ Node.null Node.null 1) Node.null 2)
        (Node.mk ⟨40, [], 3⟩ Node.null Node.null 1) 3) ∧
      HeightsOK (Node.mk ⟨30, [], 1⟩
        (Node.mk ⟨20, [], 2⟩ (Node.mk ⟨10, [], 4⟩ Node.null Node.null 1) Node.null 2)
        (Node.mk ⟨40, [], 3⟩ Node.null Node.null 1) 3)) ∧
    ∃ t' out tr,
      insertTraced (Node.mk ⟨30, [], 1⟩
        (Node.mk ⟨20, [], 2⟩ (Node.mk ⟨10, [], 4⟩ Node.null Node.null 1) Node.null 2)
        (Node.mk ⟨40, [], 3⟩ Node.null Node.null 1) 3) ⟨15, [], 5⟩ = some (t', out, tr) ∧
      insert (Node.mk ⟨30, [], 1⟩
        (Node.mk ⟨20, [], 2⟩ (Node.mk ⟨10, [], 4⟩ Node.null Node.null 1) Node.null 2)
        (Node.mk ⟨40, [], 3⟩ Node.null Node.null 1) 3) ⟨15, [], 5⟩ = some (t', out) ∧
      (∀ b, Exit.returnNode b ∈ tr → -1 ≤ b ∧ b ≤ 1) ∧
      BSTOrdered t' ∧ Balanced t' ∧ HeightsOK t' :=
  ⟨by decide,
    C19_insert_reads_no_absent_child _ ⟨15, [], 5⟩ (by decide) (by decide) (by decide)⟩

/-- C20: on every tree that is BST-ordered, balanced and has correct cached
heights, and for every record (with a new key in particular), the true height
of the tree insert returns is the old height or the old height plus one; when
a rotation case, single or double, is taken anywhere on the insertion path the
height of the whole tree is unchanged, and when it is taken at the root the
rotated tree has the height the tree had before the insertion; at most one
node of the insertion path takes a rotation case. -/
theorem C20_insert_height_and_single_rebalance (t : Node) (emp : Employee)
    (hbst : BSTOrdered t) (hbal : Balanced t) (hcached : HeightsOK t)
    (hnew : emp.employee_id ∉ keys t) :
    ∃ t' out tr, insertTraced t emp = some (t', out, tr) ∧
      insert t emp = some (t', out) ∧ out = [] ∧
      (realHeight t' = realHeight t ∨ realHeight t' = realHeight t + 1) ∧
      (tr.filter Exit.isRotation ≠ [] → realHeight t' = realHeight t) ∧
      (∀ x, tr.getLast? = some x → x.isRotation = true → realHeight t' = realHeight t) ∧
      (tr.filter Exit.isRotation).length ≤ 1 := by
  obtain ⟨t', out, tr, e1, -, cnt, same⟩ := insertTraced_spec t emp hbst hbal hcached
  obtain ⟨t'', e0, -, -, -, -, -, hg⟩ := insert_spec t emp hbst hbal hcached
  have e2 : insert t emp = some (t', out) := by
    rw [insert_eq_traced, e1]; rfl
  rw [e2, if_neg hnew] at e0
  simp only [Option.some.injEq, Prod.mk.injEq] at e0
  obtain ⟨ht, ho⟩ := e0
  subst ht
  refine ⟨t', out, tr, e1, e2, ho, ?_, same, ?_, cnt⟩
  · rcases hg with h1 | ⟨h1, -⟩
    · exact Or.inl h1
    · exact Or.inr h1
  · intro x hx hr
    apply same
    intro hf
    have hm : x ∈ tr.filter Exit.isRotation :=
      List.mem_filter.2 ⟨List.mem_of_getLast?_eq_some hx, hr⟩
    rw [hf] at hm
    exact absurd hm (List.not_mem_nil x)

/-- Instance of C20: inserting id 15 into the tree built from 30, 20, 40, 10. -/
theorem C20_witness :
    (BSTOrdered (Node.mk ⟨30, [], 1⟩
        (Node.mk ⟨20, [], 2⟩ (Node.mk ⟨10, [], 4⟩ Node.null Node.null 1) Node.null 2)
        (Node.mk ⟨40, [], 3⟩ Node.null Node.null 1) 3) ∧
      Balanced (Node.mk ⟨30, [], 1⟩
        (Node.mk ⟨20, [], 2⟩ (Node.mk ⟨10, [], 4⟩ Node.null Node.null 1) Node.null 2)
        (Node.mk ⟨40, [], 3⟩ Node.null Node.null 1) 3) ∧
      HeightsOK (Node.mk ⟨30, [], 1⟩
        (Node.mk ⟨20, [], 2⟩ (Node.mk ⟨10, [], 4⟩ Node.null Node.null 1) Node.null 2)
        (Node.mk ⟨40, [], 3⟩ Node.null Node.null 1) 3) ∧
      (15 : Int) ∉ keys (Node.mk ⟨30, [], 1⟩
        (Node.mk ⟨20, [], 2⟩ (Node.mk ⟨10, [], 4⟩ Node.null Node.null 1) Node.null 2)
        (Node.mk ⟨40, [], 3⟩ Node.null Node.null 1) 3)) ∧
    ∃ t' out tr,
      insertTraced (Node.mk ⟨30, [], 1⟩
        (Node.mk ⟨20, [], 2⟩ (Node.mk ⟨10, [], 4⟩ Node.null Node.null 1) Node.null 2)
        (Node.mk ⟨40, [], 3⟩ Node.null Node.null 1) 3) ⟨15, [], 5⟩ = some (t', out, tr) ∧
      insert (Node.mk ⟨30, [], 1⟩
        (Node.mk ⟨20, [], 2⟩ (Node.mk ⟨10, [], 4⟩ Node.null Node.null 1) Node.null 2)
        (Node.mk ⟨40, [], 3⟩ Node.null Node.null 1) 3) ⟨15, [], 5⟩ = some (t', out) ∧
      out = [] ∧
      (realHeight t' = realHeight (Node.mk ⟨30, [], 1⟩
          (Node.mk ⟨20, [], 2⟩ (Node.mk ⟨10, [], 4⟩ Node.null Node.null 1) Node.null 2)
          (Node.mk ⟨40, [], 3⟩ Node.null Node.null 1) 3) ∨
        realHeight t' = realHeight (Node.mk ⟨30, [], 1⟩
          (Node.mk ⟨20, [], 2⟩ (Node.mk ⟨10, [], 4⟩ Node.null Node.null 1) Node.null 2)
          (Node.mk ⟨40, [], 3⟩ Node.null Node.null 1) 3) + 1) ∧
      (tr.filter Exit.isRotation ≠ [] →
        realHeight t' = realHeight (Node.mk ⟨30, [], 1⟩
          (Node.mk ⟨20, [], 2⟩ (Node.mk ⟨10, [], 4⟩ Node.null Node.null 1) Node.null 2)
          (Node.mk ⟨40, [], 3⟩ Node.null Node.null 1) 3)) ∧
      (∀ x, tr.getLast? = some x → x.isRotation = true →
        realHeight t' = realHeight (Node.mk ⟨30, [], 1⟩
          (Node.mk ⟨20, [], 2⟩ (Node.mk ⟨10, [], 4⟩ Node.null Node.null 1) Node.null 2)
          (Node.mk ⟨40, [], 3⟩ Node.null Node.null 1) 3)) ∧
      (tr.filter Exit.isRotation).length ≤ 1 :=
  ⟨by decide,
    C20_insert_height_and_single_rebalance _ ⟨15, [], 5⟩
      (by decide) (by decide) (by decide) (by decide)⟩

end EmployeeTracker
